import Mathlib

/-!
Verification development for the hybrid retrieval engine of the nrcc repository.
Python strings are modelled as lists of characters; numpy float arrays are
modelled as lists of rationals; Python dicts are modelled as association lists;
a Python function that can raise is modelled in the Except monad.
-/

deriving instance DecidableEq for Except

attribute [local semireducible] Rat.add Rat.sub Rat.mul Rat.inv

namespace NRCC

/-- Characters removed by the diacritics regex in src/app/normalize.py
(code point ranges 0617 to 061A and 064B to 0652). -/
def isDiac (c : Char) : Bool :=
  (0x0617 ≤ c.val && c.val ≤ 0x061A) || (0x064B ≤ c.val && c.val ≤ 0x0652)

/-- Embedding of strip_diacritics from src/app/normalize.py. -/
def strip_diacritics (s : List Char) : List Char :=
  s.filter (fun c => !(isDiac c))

/-- Model of the Python single character replacement str.replace(a, b)
with one character on both sides. -/
def replaceChar (a b : Char) (s : List Char) : List Char :=
  s.map (fun c => if c = a then b else c)

/-- Model of str.replace(a, empty string), which deletes every occurrence of a. -/
def removeChar (a : Char) (s : List Char) : List Char :=
  s.filter (fun c => !(c == a))

/-- Embedding of normalize_ar from src/app/normalize.py: strip diacritics,
delete the tatweel character, unify hamza bearing alef forms, unify yaa and waw
variants, and map Arabic punctuation and curly quotes to ASCII. The replacement
steps are applied in the exact source order, innermost first. -/
def normalize_ar (s : List Char) : List Char :=
  replaceChar '’' '\'' <| replaceChar '”' '"' <| replaceChar '“' '"' <|
  replaceChar '؟' '?' <| replaceChar '؛' ';' <| replaceChar '،' ',' <|
  replaceChar 'ئ' 'ي' <| replaceChar 'ؤ' 'و' <| replaceChar 'ى' 'ي' <|
  replaceChar 'آ' 'ا' <| replaceChar 'إ' 'ا' <| replaceChar 'أ' 'ا' <|
  removeChar 'ـ' <| strip_diacritics s

theorem normalize_ar_append (s t : List Char) :
    normalize_ar (s ++ t) = normalize_ar s ++ normalize_ar t := by
  simp [normalize_ar, strip_diacritics, replaceChar, removeChar]

theorem normalize_ar_char_idem (c : Char) :
    normalize_ar (normalize_ar [c]) = normalize_ar [c] := by
  cases hd : isDiac c with
  | true =>
    have h : normalize_ar [c] = [] := by
      simp [normalize_ar, strip_diacritics, replaceChar, removeChar, hd]
    rw [h]; rfl
  | false =>
    by_cases h0 : c = 'ـ'
    · subst h0; decide
    by_cases h1 : c = 'أ'
    · subst h1; decide
    by_cases h2 : c = 'إ'
    · subst h2; decide
    by_cases h3 : c = 'آ'
    · subst h3; decide
    by_cases h4 : c = 'ى'
    · subst h4; decide
    by_cases h5 : c = 'ؤ'
    · subst h5; decide
    by_cases h6 : c = 'ئ'
    · subst h6; decide
    by_cases h7 : c = '،'
    · subst h7; decide
    by_cases h8 : c = '؛'
    · subst h8; decide
    by_cases h9 : c = '؟'
    · subst h9; decide
    by_cases h10 : c = '“'
    · subst h10; decide
    by_cases h11 : c = '”'
    · subst h11; decide
    by_cases h12 : c = '’'
    · subst h12; decide
    have h : normalize_ar [c] = [c] := by
      simp [normalize_ar, strip_diacritics, replaceChar, removeChar, hd,
        h0, h1, h2, h3, h4, h5, h6, h7, h8, h9, h10, h11, h12]
    rw [h, h]

/-- Claim C10: the Arabic normalizer is idempotent; applying normalize_ar to
already normalized text is a no-op. -/
theorem normalize_ar_idempotent (s : List Char) :
    normalize_ar (normalize_ar s) = normalize_ar s := by
  induction s with
  | nil => rfl
  | cons c s ih =>
    have hsplit : (c :: s) = [c] ++ s := rfl
    rw [hsplit, normalize_ar_append, normalize_ar_append,
      normalize_ar_char_idem, ih]

/-- Epsilon used by minmax_norm in src/app/retrieval.py (the literal 1e-9). -/
def eps : ℚ := 1 / 1000000000

/-- Model of numpy ndarray.min on a nonempty array (0 on the empty array,
which minmax_norm never reaches). -/
def listMin : List ℚ → ℚ
  | [] => 0
  | a :: l => l.foldl min a

/-- Model of numpy ndarray.max on a nonempty array. -/
def listMax : List ℚ → ℚ
  | [] => 0
  | a :: l => l.foldl max a

/-- Embedding of minmax_norm from src/app/retrieval.py lines 27 to 31:
return the array unchanged when empty, an all zero array when the span
max minus min is below 1e-9, and the affinely rescaled array otherwise. -/
def minmax_norm (a : List ℚ) : List ℚ :=
  if a = [] then a
  else
    let mn := listMin a
    let mx := listMax a
    if mx - mn < eps then a.map (fun _ => 0)
    else a.map (fun x => (x - mn) / (mx - mn))

theorem foldl_min_le_init (l : List ℚ) : ∀ a : ℚ, l.foldl min a ≤ a := by
  induction l with
  | nil => intro a; simp
  | cons b l ih =>
    intro a
    calc (b :: l).foldl min a = l.foldl min (min a b) := rfl
    _ ≤ min a b := ih (min a b)
    _ ≤ a := min_le_left _ _

theorem foldl_min_le_mem (l : List ℚ) : ∀ a x : ℚ, x ∈ l → l.foldl min a ≤ x := by
  induction l with
  | nil => intro a x hx; cases hx
  | cons b l ih =>
    intro a x hx
    rcases List.mem_cons.mp hx with h | h
    · subst h
      calc (x :: l).foldl min a = l.foldl min (min a x) := rfl
      _ ≤ min a x := foldl_min_le_init l (min a x)
      _ ≤ x := min_le_right _ _
    · exact ih (min a b) x h

theorem init_le_foldl_max (l : List ℚ) : ∀ a : ℚ, a ≤ l.foldl max a := by
  induction l with
  | nil => intro a; simp
  | cons b l ih =>
    intro a
    calc a ≤ max a b := le_max_left _ _
    _ ≤ l.foldl max (max a b) := ih (max a b)
    _ = (b :: l).foldl max a := rfl

theorem mem_le_foldl_max (l : List ℚ) : ∀ a x : ℚ, x ∈ l → x ≤ l.foldl max a := by
  induction l with
  | nil => intro a x hx; cases hx
  | cons b l ih =>
    intro a x hx
    rcases List.mem_cons.mp hx with h | h
    · subst h
      calc x ≤ max a x := le_max_right _ _
      _ ≤ l.foldl max (max a x) := init_le_foldl_max l (max a x)
      _ = (x :: l).foldl max a := rfl
    · exact ih (max a b) x h

theorem listMin_le (l : List ℚ) (x : ℚ) (hx : x ∈ l) : listMin l ≤ x := by
  cases l with
  | nil => cases hx
  | cons a l =>
    rcases List.mem_cons.mp hx with h | h
    · subst h; exact foldl_min_le_init l x
    · exact foldl_min_le_mem l a x h

theorem le_listMax (l : List ℚ) (x : ℚ) (hx : x ∈ l) : x ≤ listMax l := by
  cases l with
  | nil => cases hx
  | cons a l =>
    rcases List.mem_cons.mp hx with h | h
    · subst h; exact init_le_foldl_max l x
    · exact mem_le_foldl_max l a x h

/-- Claim C6: for every nonempty score array, every value returned by
minmax_norm lies in the closed interval from 0 to 1, and when the span
max minus min is below the epsilon 1e-9 (in particular when all raw scores
are equal) every normalized score is 0, so the near zero span is never
divided by. -/
theorem minmax_norm_bounded (a : List ℚ) (h : a ≠ []) :
    (∀ x ∈ minmax_norm a, 0 ≤ x ∧ x ≤ 1) ∧
    (listMax a - listMin a < eps → ∀ x ∈ minmax_norm a, x = 0) := by
  unfold minmax_norm
  rw [if_neg h]
  by_cases hc : listMax a - listMin a < eps
  · rw [if_pos hc]
    constructor
    · intro x hx
      rcases List.mem_map.mp hx with ⟨y, _, hxy⟩
      subst hxy
      exact ⟨le_refl 0, by norm_num⟩
    · intro _ x hx
      rcases List.mem_map.mp hx with ⟨y, _, hxy⟩
      exact hxy.symm
  · rw [if_neg hc]
    have hpos : 0 < listMax a - listMin a := by
      have hle : eps ≤ listMax a - listMin a := le_of_not_lt hc
      have : (0 : ℚ) < eps := by norm_num [eps]
      linarith
    constructor
    · intro x hx
      rcases List.mem_map.mp hx with ⟨y, hy, hxy⟩
      subst hxy
      constructor
      · apply div_nonneg _ (le_of_lt hpos)
        have := listMin_le a y hy
        linarith
      · rw [div_le_one hpos]
        have := le_listMax a y hy
        linarith
    · intro habs
      exact absurd habs hc

/-- Witness for claim C6 at the concrete array with entries 1 and 3. -/
theorem minmax_norm_bounded_witness :
    (∀ x ∈ minmax_norm [(1 : ℚ), 3], 0 ≤ x ∧ x ≤ 1) ∧
    (listMax [(1 : ℚ), 3] - listMin [(1 : ℚ), 3] < eps →
      ∀ x ∈ minmax_norm [(1 : ℚ), 3], x = 0) :=
  minmax_norm_bounded [(1 : ℚ), 3] (by decide)

/-- Abbreviation for the model of a Python string. -/
abbrev Str := List Char

/-- Deduplication keeping the first occurrence, with an accumulator of the
values already seen; models building a Python set and listing it, with the
iteration order fixed to first insertion order. -/
def dedupAux {α : Type} [DecidableEq α] (seen : List α) : List α → List α
  | [] => []
  | a :: l => if a ∈ seen then dedupAux seen l else a :: dedupAux (a :: seen) l

/-- Model of list(set(l)) keeping first occurrences. -/
def dedupKeepFirst {α : Type} [DecidableEq α] (l : List α) : List α :=
  dedupAux [] l

theorem mem_dedupAux {α : Type} [DecidableEq α] (l : List α) :
    ∀ (seen : List α) (x : α), x ∈ dedupAux seen l ↔ (x ∈ l ∧ x ∉ seen) := by
  induction l with
  | nil => intro seen x; simp [dedupAux]
  | cons a l ih =>
    intro seen x
    by_cases ha : a ∈ seen
    · rw [dedupAux, if_pos ha, ih]
      constructor
      · rintro ⟨hx, hs⟩; exact ⟨List.mem_cons_of_mem a hx, hs⟩
      · rintro ⟨hx, hs⟩
        rcases List.mem_cons.mp hx with h | h
        · subst h; exact absurd ha hs
        · exact ⟨h, hs⟩
    · rw [dedupAux, if_neg ha]
      constructor
      · intro hx
        rcases List.mem_cons.mp hx with h | h
        · subst h; exact ⟨List.mem_cons_self x l, ha⟩
        · rcases (ih (a :: seen) x).mp h with ⟨hl, hs⟩
          refine ⟨List.mem_cons_of_mem a hl, fun hk => hs (List.mem_cons_of_mem a hk)⟩
      · rintro ⟨hx, hs⟩
        rcases List.mem_cons.mp hx with h | h
        · subst h; exact List.mem_cons_self x _
        · by_cases hxa : x = a
          · subst hxa; exact List.mem_cons_self x _
          · refine List.mem_cons_of_mem a ((ih (a :: seen) x).mpr ⟨h, ?_⟩)
            intro hk
            rcases List.mem_cons.mp hk with h2 | h2
            · exact hxa h2
            · exact hs h2

theorem mem_dedupKeepFirst {α : Type} [DecidableEq α] (l : List α) (x : α) :
    x ∈ dedupKeepFirst l ↔ x ∈ l := by
  rw [dedupKeepFirst, mem_dedupAux]
  simp

theorem nodup_dedupAux {α : Type} [DecidableEq α] (l : List α) :
    ∀ seen : List α, (dedupAux seen l).Nodup := by
  induction l with
  | nil => intro seen; simp [dedupAux]
  | cons a l ih =>
    intro seen
    by_cases ha : a ∈ seen
    · rw [dedupAux, if_pos ha]; exact ih seen
    · rw [dedupAux, if_neg ha]
      refine List.Nodup.cons ?_ (ih (a :: seen))
      intro hmem
      rcases (mem_dedupAux l (a :: seen) a).mp hmem with ⟨_, hs⟩
      exact hs (List.mem_cons_self a seen)

theorem length_dedupAux_le {α : Type} [DecidableEq α] (l : List α) :
    ∀ seen : List α, (dedupAux seen l).length ≤ l.length := by
  induction l with
  | nil => intro seen; simp [dedupAux]
  | cons a l ih =>
    intro seen
    by_cases ha : a ∈ seen
    · rw [dedupAux, if_pos ha]
      exact Nat.le_succ_of_le (ih seen)
    · rw [dedupAux, if_neg ha]
      exact Nat.succ_le_succ (ih (a :: seen))

/-- Embedding of the fixed ROLE_HIERARCHY dict from src/app/auth.py. -/
def ROLE_HIERARCHY : List (Str × List Str) :=
  [("admin".toList, ["admin".toList, "legal".toList, "staff".toList]),
   ("legal".toList, ["legal".toList, "staff".toList]),
   ("staff".toList, ["staff".toList])]

/-- Model of the dict lookup ROLE_HIERARCHY[role], returning none when the
role is not a key (the membership test in get_effective_roles). -/
def lookupRole (r : Str) : Option (List Str) :=
  (ROLE_HIERARCHY.find? (fun e => e.1 == r)).map Prod.snd

/-- Embedding of get_effective_roles from src/app/auth.py lines 196 to 204:
union over the declared roles of each hierarchy entry, skipping declared roles
that are not hierarchy keys; the Python set is modelled as a list deduplicated
in first insertion order. -/
def get_effective_roles (user_roles : List Str) : List Str :=
  dedupKeepFirst (user_roles.foldl
    (fun acc role =>
      match lookupRole role with
      | some l => acc ++ l
      | none => acc) [])

theorem lookupRole_cases (r : Str) (l : List Str) (h : lookupRole r = some l) :
    r ∈ l ∧ ∀ y ∈ l, y ∈ ["admin".toList, "legal".toList, "staff".toList] := by
  unfold lookupRole at h
  rcases Option.map_eq_some'.mp h with ⟨e, hfind, hsnd⟩
  have hpred := List.find?_some hfind
  have hmem := List.mem_of_find?_eq_some hfind
  have heq : e.1 = r := by
    have := eq_of_beq hpred
    exact this
  simp only [ROLE_HIERARCHY, List.mem_cons, List.not_mem_nil, or_false] at hmem
  rcases hmem with he | he | he <;> subst he <;> rw [← hsnd] <;> subst heq <;> decide

theorem effective_fold_mono (user_roles : List Str) :
    ∀ (acc : List Str) (x : Str), x ∈ acc →
      x ∈ user_roles.foldl
        (fun acc role =>
          match lookupRole role with
          | some l => acc ++ l
          | none => acc) acc := by
  induction user_roles with
  | nil => intro acc x hx; exact hx
  | cons r roles ih =>
    intro acc x hx
    simp only [List.foldl_cons]
    cases hl : lookupRole r with
    | none => simpa [hl] using ih acc x hx
    | some l =>
      have : x ∈ acc ++ l := List.mem_append_left l hx
      simpa [hl] using ih (acc ++ l) x this

theorem effective_fold_of_lookup (user_roles : List Str) :
    ∀ (acc : List Str) (r : Str) (l : List Str) (x : Str),
      r ∈ user_roles → lookupRole r = some l → x ∈ l →
      x ∈ user_roles.foldl
        (fun acc role =>
          match lookupRole role with
          | some l => acc ++ l
          | none => acc) acc := by
  induction user_roles with
  | nil => intro acc r l x hr; cases hr
  | cons r0 roles ih =>
    intro acc r l x hr hl hx
    simp only [List.foldl_cons]
    rcases List.mem_cons.mp hr with h | h
    · subst h
      rw [hl]
      exact effective_fold_mono roles (acc ++ l) x (List.mem_append_right acc hx)
    · cases hl0 : lookupRole r0 with
      | none => exact ih acc r l x h hl hx
      | some l0 => exact ih (acc ++ l0) r l x h hl hx

theorem effective_fold_subset (user_roles : List Str) :
    ∀ (acc : List Str) (x : Str),
      (∀ y ∈ acc, y ∈ ["admin".toList, "legal".toList, "staff".toList]) →
      x ∈ user_roles.foldl
        (fun acc role =>
          match lookupRole role with
          | some l => acc ++ l
          | none => acc) acc →
      x ∈ ["admin".toList, "legal".toList, "staff".toList] := by
  induction user_roles with
  | nil => intro acc x hacc hx; exact hacc x hx
  | cons r roles ih =>
    intro acc x hacc hx
    simp only [List.foldl_cons] at hx
    cases hl : lookupRole r with
    | none =>
      rw [hl] at hx
      exact ih acc x hacc hx
    | some l =>
      rw [hl] at hx
      refine ih (acc ++ l) x ?_ hx
      intro y hy
      rcases List.mem_append.mp hy with h | h
      · exact hacc y h
      · exact (lookupRole_cases r l hl).2 y h

/-- Counterexample to claim C2 as stated: the declared role public is not in
the fixed hierarchy, so get_effective_roles drops it entirely; the effective
set is empty and is not a superset of the declared list. -/
theorem get_effective_roles_drops_unknown_role :
    "public".toList ∈ ["public".toList] ∧
    get_effective_roles ["public".toList] = [] ∧
    "public".toList ∉ get_effective_roles ["public".toList] := by decide

/-- Claim C2 amended: the effective role set is a superset of the declared
roles that occur as keys of the fixed hierarchy (widening never removes such a
role), and every effective role is one of the three hierarchy roles; declared
roles outside the hierarchy are dropped. -/
theorem get_effective_roles_superset_on_hierarchy (user_roles : List Str) (r : Str)
    (hr : r ∈ user_roles) (hh : (lookupRole r).isSome) :
    r ∈ get_effective_roles user_roles ∧
    ∀ x ∈ get_effective_roles user_roles,
      x ∈ ["admin".toList, "legal".toList, "staff".toList] := by
  rcases Option.isSome_iff_exists.mp hh with ⟨l, hl⟩
  constructor
  · rw [get_effective_roles, mem_dedupKeepFirst]
    exact effective_fold_of_lookup user_roles [] r l r hr hl (lookupRole_cases r l hl).1
  · intro x hx
    rw [get_effective_roles, mem_dedupKeepFirst] at hx
    exact effective_fold_subset user_roles [] x (by intro y hy; cases hy) hx

/-- Witness for the amended claim C2 at the concrete declared role staff. -/
theorem get_effective_roles_superset_witness :
    "staff".toList ∈ get_effective_roles ["staff".toList] ∧
    ∀ x ∈ get_effective_roles ["staff".toList],
      x ∈ ["admin".toList, "legal".toList, "staff".toList] :=
  get_effective_roles_superset_on_hierarchy ["staff".toList] "staff".toList
    (by decide) (by decide)

/-- Model of Python str.lower restricted to ASCII letters; every string this
system lowercases is ASCII or Arabic, and Arabic has no case. -/
def toLowerPy (c : Char) : Char :=
  if 'A' ≤ c ∧ c ≤ 'Z' then Char.ofNat (c.toNat + 32) else c

/-- Lowercasing of a whole string. -/
def lowerStr (s : Str) : Str := s.map toLowerPy

/-- Python whitespace characters recognized by str.strip and str.split. -/
def isSpacePy (c : Char) : Bool :=
  c == ' ' || c == '\t' || c == '\n' || c == '\r' || c == '\x0b' || c == '\x0c'

/-- Model of Python str.strip with no argument. -/
def stripStr (s : Str) : Str :=
  ((s.dropWhile isSpacePy).reverse.dropWhile isSpacePy).reverse

/-- Maximal runs of characters satisfying p, in order; the accumulator holds
the current run reversed. -/
def runsAux (p : Char → Bool) : List Char → List Char → List Str
  | [], acc => if acc.isEmpty then [] else [acc.reverse]
  | c :: cs, acc =>
    if p c then runsAux p cs (c :: acc)
    else if acc.isEmpty then runsAux p cs []
    else acc.reverse :: runsAux p cs []

/-- Maximal runs of characters satisfying p. -/
def runsOf (p : Char → Bool) (s : Str) : List Str := runsAux p s []

/-- Model of Python str.split with no argument: maximal nonempty runs of
non whitespace characters. -/
def splitWs (s : Str) : List Str := runsOf (fun c => !(isSpacePy c)) s

/-- Model of the Python substring test p in t. -/
def isSubstr (p t : Str) : Bool :=
  (List.range (t.length + 1)).any (fun i => (t.drop i).take p.length == p)

/-- Embedding of to_western_digits from src/app/normalize.py: translate the
Arabic Indic digits 0660 to 0669 and the extended Arabic Indic digits 06F0 to
06F9 to ASCII digits, leaving every other character untouched. -/
def westDigit (c : Char) : Char :=
  if 0x0660 ≤ c.val ∧ c.val ≤ 0x0669 then Char.ofNat (c.toNat - 0x0660 + 48)
  else if 0x06F0 ≤ c.val ∧ c.val ≤ 0x06F9 then Char.ofNat (c.toNat - 0x06F0 + 48)
  else c

/-- Embedding of to_western_digits applied to a whole string. -/
def to_western_digits (s : Str) : Str := s.map westDigit

/-- Characters matched by the token regex of tokenize_ar: the Arabic block
0621 to 064A and the ASCII digits. -/
def isTokChar (c : Char) : Bool :=
  (0x0621 ≤ c.val && c.val ≤ 0x064A) || c.isDigit

/-- Embedding of tokenize_ar from src/app/normalize.py: digit conversion,
normalization, then extraction of maximal token character runs. -/
def tokenize_ar (s : Str) : List Str :=
  runsOf isTokChar (normalize_ar (to_western_digits s))

/-- Model of a nonempty intersection test between two Python sets of role
names, as a filtered list. -/
def interRoles (a b : List Str) : List Str :=
  a.filter (fun r => b.contains r)

/-- Embedding of check_file_access from src/app/auth.py lines 163 to 176:
a document whose identifier contains the case insensitive substring restricted
is accessible only to the declared roles legal and admin; every other document
is accessible to all roles. -/
def check_file_access (user_roles : List Str) (doc_id : Str) : Bool :=
  if isSubstr "restricted".toList (lowerStr doc_id) then
    !(interRoles user_roles ["legal".toList, "admin".toList]).isEmpty
  else true

/-- Shorthand turning a string literal into its character list model. -/
def ts (s : String) : Str := s.toList

/-- Model of the glossary mapping: an association list from a term to its
synonym list. The empty list models a missing glossary file, which
load_glossary in src/app/retrieval.py turns into an empty dict. -/
abbrev Glossary := List (Str × List Str)

/-- Embedding of the hard coded common_legal_terms table inside
expand_terms_from_glossary in src/app/retrieval.py lines 219 to 237. -/
def common_legal_terms : List (Str × List Str) :=
  [(ts "treaty", [ts "اتفاقية", ts "معاهدة", ts "اتفاق", ts "ميثاق", ts "عقد"]),
   (ts "agreement", [ts "اتفاقية", ts "اتفاق", ts "معاهدة", ts "عقد"]),
   (ts "obligation", [ts "التزام", ts "التزامات", ts "واجب", ts "واجبات"]),
   (ts "responsibility", [ts "مسؤولية", ts "مسؤوليات"]),
   (ts "compensation", [ts "تعويض", ts "تعويضات"]),
   (ts "license", [ts "ترخيص", ts "تراخيص", ts "رخصة", ts "إذن"]),
   (ts "nuclear", [ts "نووي", ts "ذري", ts "نووية", ts "ذرية"]),
   (ts "radiation", [ts "إشعاع", ts "إشعاعي", ts "إشعاعية"]),
   (ts "safety", [ts "أمان", ts "أمن", ts "سلامة"]),
   (ts "authority", [ts "هيئة", ts "سلطة", ts "جهة"]),
   (ts "regulation", [ts "نظام", ts "لائحة", ts "تنظيم"]),
   (ts "اتفاقية", [ts "treaty", ts "agreement", ts "معاهدة", ts "اتفاق", ts "عقد"]),
   (ts "التزام", [ts "obligation", ts "واجب", ts "التزامات"]),
   (ts "مسؤولية", [ts "responsibility", ts "مسؤوليات"]),
   (ts "ترخيص", [ts "license", ts "رخصة", ts "إذن", ts "تراخيص"]),
   (ts "نووي", [ts "nuclear", ts "ذري", ts "نووية"]),
   (ts "هيئة", [ts "authority", ts "سلطة", ts "جهة"])]

/-- Words of a compound term that survive the word length filter used when an
entry matches (words longer than 2 characters of terms containing a space). -/
def compoundWords (term : Str) : List Str :=
  if term.contains ' ' then (splitWs term).filter (fun w => decide (w.length > 2))
  else []

/-- Contribution of one glossary entry to the expansion, given the query
tokens, the normalized query and the lowered stripped query: the matching
policy of src/app/retrieval.py lines 179 to 216. -/
def entryContribution (q_tokens : List Str) (q_normalized oq : Str)
    (e : Str × List Str) : List Str :=
  let main := e.1
  let synonyms := e.2
  let main_term_matches := q_tokens.any (fun tok =>
    isSubstr tok (normalize_ar main) || isSubstr (normalize_ar main) q_normalized ||
    isSubstr tok (lowerStr main) || isSubstr (lowerStr main) oq)
  let synonym_matches := synonyms.any (fun syn =>
    q_tokens.any (fun tok =>
      isSubstr tok (normalize_ar syn) || isSubstr (normalize_ar syn) tok ||
      isSubstr tok (lowerStr syn) || isSubstr (lowerStr syn) oq))
  let partial_matches := decide (oq.length > 4) &&
    (isSubstr oq (lowerStr main) || isSubstr (lowerStr main) oq ||
     synonyms.any (fun syn => decide (syn.length > 3) &&
       (isSubstr oq (lowerStr syn) || isSubstr (lowerStr syn) oq)))
  if main_term_matches || synonym_matches || partial_matches then
    main :: synonyms ++ compoundWords main ++ synonyms.flatMap compoundWords
  else []

/-- Contribution of one entry of the built in common_legal_terms table:
the substring either direction rule of src/app/retrieval.py lines 240 to 243. -/
def commonContribution (q_tokens : List Str) (oq : Str) (e : Str × List Str) : List Str :=
  if isSubstr (lowerStr e.1) oq || isSubstr oq (lowerStr e.1) ||
      q_tokens.any (fun tok => isSubstr tok (lowerStr e.1)) then e.2
  else []

/-- Embedding of the final deduplication of expand_terms_from_glossary,
src/app/retrieval.py lines 246 to 250: strip each term, keep it when longer
than one character and not already collected. -/
def dedupClean (l : List Str) : List Str :=
  l.foldl (fun acc term =>
    let tc := stripStr term
    if decide (tc.length > 1) && !(acc.contains tc) then acc ++ [tc] else acc) []

/-- Embedding of expand_terms_from_glossary from src/app/retrieval.py lines
171 to 253: glossary driven expansion, then the built in bilingual table,
then deduplication and the cap at 50 terms. -/
def expand_terms_from_glossary (query : Str) (glossary : Glossary) : List Str :=
  let q_tokens := tokenize_ar query
  let q_normalized := normalize_ar query
  let oq := lowerStr (stripStr query)
  let expanded :=
    glossary.foldl (fun acc e => acc ++ entryContribution q_tokens q_normalized oq e) [] ++
    common_legal_terms.foldl (fun acc e => acc ++ commonContribution q_tokens oq e) []
  (dedupClean expanded).take 50

theorem mem_foldl_append {α β : Type} (g : β → List α) (l : List β) :
    ∀ (init : List α) (x : α),
      x ∈ l.foldl (fun acc e => acc ++ g e) init → x ∈ init ∨ ∃ e ∈ l, x ∈ g e := by
  induction l with
  | nil => intro init x hx; exact Or.inl hx
  | cons e l ih =>
    intro init x hx
    simp only [List.foldl_cons] at hx
    rcases ih (init ++ g e) x hx with h | ⟨e2, he2, hx2⟩
    · rcases List.mem_append.mp h with h | h
      · exact Or.inl h
      · exact Or.inr ⟨e, List.mem_cons_self e l, h⟩
    · exact Or.inr ⟨e2, List.mem_cons_of_mem e he2, hx2⟩

theorem mem_dedupClean (l : List Str) :
    ∀ (x : Str), x ∈ dedupClean l → ∃ u ∈ l, x = stripStr u := by
  have key : ∀ (l : List Str) (acc : List Str) (x : Str),
      x ∈ l.foldl (fun acc term =>
        let tc := stripStr term
        if decide (tc.length > 1) && !(acc.contains tc) then acc ++ [tc] else acc) acc →
      x ∈ acc ∨ ∃ u ∈ l, x = stripStr u := by
    intro l
    induction l with
    | nil => intro acc x hx; exact Or.inl hx
    | cons t l ih =>
      intro acc x hx
      simp only [List.foldl_cons] at hx
      by_cases hc : (decide ((stripStr t).length > 1) && !(acc.contains (stripStr t))) = true
      · rw [if_pos hc] at hx
        rcases ih (acc ++ [stripStr t]) x hx with h | ⟨u, hu, hxu⟩
        · rcases List.mem_append.mp h with h | h
          · exact Or.inl h
          · rcases List.mem_singleton.mp h with h
            exact Or.inr ⟨t, List.mem_cons_self t l, h⟩
        · exact Or.inr ⟨u, List.mem_cons_of_mem t hu, hxu⟩
      · rw [if_neg hc] at hx
        rcases ih acc x hx with h | ⟨u, hu, hxu⟩
        · exact Or.inl h
        · exact Or.inr ⟨u, List.mem_cons_of_mem t hu, hxu⟩
  intro x hx
  rcases key l [] x hx with h | h
  · cases h
  · exact h

/-- Counterexample to claim C8 as stated: with the empty glossary the English
query treaty still produces related terms, because the built in bilingual
table inside expand_terms_from_glossary fires independently of the glossary. -/
theorem expand_empty_glossary_nonempty :
    expand_terms_from_glossary (ts "treaty") [] ≠ [] := by decide

/-- Claim C8 amended: with the empty glossary the glossary driven expansion
contributes nothing and the call never fails; every returned term comes from
the fixed built in common_legal_terms table (it is the strip of one of the
synonym entries), so the result is empty only when the query also misses that
table. -/
theorem expand_empty_glossary_only_builtin (q t : Str)
    (ht : t ∈ expand_terms_from_glossary q []) :
    ∃ e ∈ common_legal_terms, ∃ s ∈ e.2, t = stripStr s := by
  unfold expand_terms_from_glossary at ht
  simp only [List.foldl_nil, List.nil_append] at ht
  have ht2 := List.mem_of_mem_take ht
  rcases mem_dedupClean _ t ht2 with ⟨u, hu, htu⟩
  rcases mem_foldl_append _ common_legal_terms [] u hu with h | ⟨e, he, hue⟩
  · cases h
  · refine ⟨e, he, ?_⟩
    unfold commonContribution at hue
    by_cases hc : (isSubstr (lowerStr e.1) (lowerStr (stripStr q)) ||
        isSubstr (lowerStr (stripStr q)) (lowerStr e.1) ||
        (tokenize_ar q).any fun tok => isSubstr tok (lowerStr e.1)) = true
    · rw [if_pos hc] at hue
      exact ⟨u, hue, htu⟩
    · rw [if_neg hc] at hue
      cases hue

/-- Witness for the amended claim C8 at the concrete query treaty. -/
theorem expand_empty_glossary_only_builtin_witness :
    ∃ e ∈ common_legal_terms, ∃ s ∈ e.2, ts "اتفاقية" = stripStr s :=
  expand_empty_glossary_only_builtin (ts "treaty") (ts "اتفاقية") (by decide)

/-- Characters the regex word class matches here: ASCII alphanumerics, the
underscore, and the Arabic letter and digit ranges occurring in this corpus
(an adequate restriction of the Unicode word class for the ASCII and Arabic
text this system processes). -/
def isWordChar (c : Char) : Bool :=
  c.isAlphanum || c == '_' ||
  (0x0620 ≤ c.val && c.val ≤ 0x064A) ||
  (0x0660 ≤ c.val && c.val ≤ 0x0669) ||
  (0x066E ≤ c.val && c.val ≤ 0x06D3) ||
  (0x06F0 ≤ c.val && c.val ≤ 0x06F9)

/-- Word boundary of the regex engine between positions i minus 1 and i:
exactly one side is a word character. -/
def boundaryAt (t : Str) (i : Nat) : Bool :=
  let bef := if i = 0 then false else
    match t[i-1]? with
    | some c => isWordChar c
    | none => false
  let aft := match t[i]? with
    | some c => isWordChar c
    | none => false
  bef != aft

/-- Case insensitive match of the literal pattern p at position i of t.
When fewer than length p characters remain the take is shorter than p and the
comparison fails, so a true result implies the match fits inside t. -/
def matchICAt (t p : Str) (i : Nat) : Bool :=
  lowerStr ((t.drop i).take p.length) == lowerStr p

/-- Scanner for finditer over a case insensitively compiled literal pattern:
positions are examined left to right and after a recorded match the next
allowed start is the end of that match, which is exactly the greedy non
overlapping semantics of finditer. The useB flag adds the word boundary
checks of the second compiled pattern of highlight_text. The fuel starts at
the text length and bounds the scan. -/
def scanAux (t p : Str) (useB : Bool) : Nat → Nat → Nat → List (Nat × Nat)
  | _, _, 0 => []
  | i, minS, fuel + 1 =>
    if minS ≤ i && matchICAt t p i &&
        (!useB || (boundaryAt t i && boundaryAt t (i + p.length))) then
      (i, i + p.length) :: scanAux t p useB (i + 1) (i + p.length) fuel
    else scanAux t p useB (i + 1) minS fuel

/-- All matches of the literal pattern p in t under finditer semantics.
The empty pattern case is unreachable from highlight_text, whose cleaned
terms always have at least two characters. -/
def findMatches (t p : Str) (useB : Bool) : List (Nat × Nat) :=
  if p.isEmpty then [] else scanAux t p useB 0 0 t.length

/-- Embedding of the term cleaning loops of highlight_text, src/app/retrieval.py
lines 40 to 58: keep the strip of every term longer than one character, and
for stripped terms longer than four characters that split into several words
also add each word longer than two characters. -/
def cleanTerms (terms : List Str) : List Str :=
  terms.foldl (fun acc term =>
    if term ≠ [] ∧ (stripStr term).length > 1 then
      acc ++ [stripStr term] ++
        (if (stripStr term).length > 4 then
          (let ws := splitWs term
           if ws.length > 1 then ws.filter (fun w => decide (w.length > 2)) else [])
         else [])
    else acc) []

/-- Stable sort of the deduplicated cleaned terms by length descending,
modelling sorted(set(terms), key=len, reverse=True) with the set iteration
order fixed to first insertion order; stability is obtained through an index
tiebreak. -/
def sortTermsByLenDesc (l : List Str) : List Str :=
  ((dedupKeepFirst l).enum.insertionSort
    (fun a b => b.2.length < a.2.length ∨ (a.2.length = b.2.length ∧ a.1 ≤ b.1))).map
    Prod.snd

/-- Record scanner matches into a position list, skipping any start and end
pair already recorded, and storing the actual matched slice of the text, as
the source stores text from match start to match end. -/
def addMatches (text : Str) (acc : List (Nat × Nat × Str)) (ms : List (Nat × Nat)) :
    List (Nat × Nat × Str) :=
  ms.foldl (fun a m =>
    if a.any (fun x => x.1 == m.1 && x.2.1 == m.2) then a
    else a ++ [(m.1, m.2, (text.drop m.1).take (m.2 - m.1))]) acc

/-- Embedding of the first highlighting pass of highlight_text (lines 61 to
81): for each cleaned yellow term, longest first, record the matches of the
plain pattern and then of the word boundary pattern. -/
def yellowPositions (text : Str) (yellow_terms : List Str) : List (Nat × Nat × Str) :=
  (sortTermsByLenDesc (cleanTerms yellow_terms)).foldl (fun acc term =>
    if stripStr term = [] then acc
    else addMatches text (addMatches text acc (findMatches text term false))
      (findMatches text term true)) []

/-- Record green matches, skipping positions that overlap a yellow span and
duplicated positions (lines 100 to 111). -/
def addGreenMatches (text : Str) (ypos : List (Nat × Nat × Str))
    (acc : List (Nat × Nat × Str)) (ms : List (Nat × Nat)) : List (Nat × Nat × Str) :=
  ms.foldl (fun a m =>
    if ypos.any (fun y => m.1 < y.2.1 && y.1 < m.2) then a
    else if a.any (fun x => x.1 == m.1 && x.2.1 == m.2) then a
    else a ++ [(m.1, m.2, (text.drop m.1).take (m.2 - m.1))]) acc

/-- Embedding of the second highlighting pass of highlight_text (lines 84 to
113): green terms whose normalized form equals a normalized yellow term are
skipped, and matches may not overlap yellow spans. -/
def greenPositions (text : Str) (yellow_terms green_terms : List Str) :
    List (Nat × Nat × Str) :=
  (sortTermsByLenDesc (cleanTerms green_terms)).foldl (fun acc term =>
    if stripStr term = [] then acc
    else if (cleanTerms yellow_terms).any
        (fun y => normalize_ar term == normalize_ar y) then acc
    else
      addGreenMatches text (yellowPositions text yellow_terms)
        (addGreenMatches text (yellowPositions text yellow_terms) acc
          (findMatches text term false))
        (findMatches text term true)) []

/-- Inner fallback loop of highlight_text over the subterm end position j for
a fixed start i (lines 123 to 130): for each subterm record its first case
insensitive occurrence. -/
def fallbackJ (text term : Str) (i : Nat) : List (Nat × Nat × Str) :=
  (List.range' (i + 3) (term.length - i - 2)).foldl (fun acc j =>
    let subterm := (term.drop i).take (j - i)
    if decide (subterm.length > 2) then
      match (findMatches text subterm false).head? with
      | some m => acc ++ [(m.1, m.2, (text.drop m.1).take (m.2 - m.1))]
      | none => acc
    else acc) []

/-- Outer fallback loop over the subterm start position i (lines 122 and 131):
stop at the first start whose inner loop found matches. -/
def fallbackI (text term : Str) : List (Nat × Nat × Str) :=
  (List.range (term.length - 2)).foldl (fun acc i =>
    if acc ≠ [] then acc else fallbackJ text term i) []

/-- Bounded brute force fallback of highlight_text (lines 116 to 134), run
only when neither pass found a match: scan subterms of the first ten candidate
terms, stopping at the first term that produces matches. -/
def fallbackPositions (text : Str) (terms : List Str) : List (Nat × Nat × Str) :=
  (terms.take 10).foldl (fun acc term =>
    if acc ≠ [] then acc
    else if decide (term.length > 3) then fallbackI text term
    else acc) []

/-- Yellow marker wrapped around a found word (the direct match markup of
line 138). -/
def markerY (found : Str) : Str :=
  (ts "<mark style=\"background:linear-gradient(135deg, #fef08a, #fde047); color:#854d0e; border:1px solid #eab308;\" title=\"Direct match: ")
    ++ found ++ (ts "\">") ++ found ++ (ts "</mark>")

/-- Green marker wrapped around a found word (the semantic match markup of
line 141). -/
def markerG (found : Str) : Str :=
  (ts "<mark style=\"background:linear-gradient(135deg, #bbf7d0, #86efac); color:#14532d; border:1px solid #22c55e;\" title=\"Semantic match: ")
    ++ found ++ (ts "\">") ++ found ++ (ts "</mark>")

/-- Combined highlight list of highlight_text (lines 137 to 143), with the
fallback pass feeding the green list when both passes were empty. -/
def allHighlights (text : Str) (yellow_terms green_terms : List Str) :
    List (Nat × Nat × Str) :=
  let ypos := yellowPositions text yellow_terms
  let gpos0 := greenPositions text yellow_terms green_terms
  let gpos := if ypos = [] ∧ gpos0 = [] then
      gpos0 ++ fallbackPositions text (cleanTerms yellow_terms ++ cleanTerms green_terms)
    else gpos0
  ypos.map (fun x => (x.1, x.2.1, markerY x.2.2)) ++
    gpos.map (fun x => (x.1, x.2.1, markerG x.2.2))

/-- Overlap test of the resolution pass (line 149) for half open spans. -/
def overlapB (a b : Nat × Nat × Str) : Bool :=
  a.1 < b.2.1 && b.1 < a.2.1

/-- Greedy overlap resolution (lines 146 to 151): keep a span when it
overlaps none of the spans kept so far. -/
def keepNonOverlapping (hs : List (Nat × Nat × Str)) : List (Nat × Nat × Str) :=
  hs.foldl (fun kept h =>
    if kept.any (fun f => overlapB h f) then kept else kept ++ [h]) []

/-- Stable sort of the combined highlight list by span length descending
(line 147). -/
def sortHighlightsByLenDesc (hs : List (Nat × Nat × Str)) : List (Nat × Nat × Str) :=
  (hs.enum.insertionSort (fun a b =>
    b.2.2.1 - b.2.1 < a.2.2.1 - a.2.1 ∨
    (a.2.2.1 - a.2.1 = b.2.2.1 - b.2.1 ∧ a.1 ≤ b.1))).map Prod.snd

/-- Stable sort of the kept spans by start descending (line 154). -/
def sortHighlightsByStartDesc (hs : List (Nat × Nat × Str)) : List (Nat × Nat × Str) :=
  (hs.enum.insertionSort (fun a b =>
    b.2.1 < a.2.1 ∨ (a.2.1 = b.2.1 ∧ a.1 ≤ b.1))).map Prod.snd

/-- Surviving spans of highlight_text in application order: length resolved,
overlap filtered, then sorted by start descending. -/
def filteredHighlights (text : Str) (yellow_terms green_terms : List Str) :
    List (Nat × Nat × Str) :=
  sortHighlightsByStartDesc (keepNonOverlapping
    (sortHighlightsByLenDesc (allHighlights text yellow_terms green_terms)))

/-- One replacement step of the application loop (line 159): splice the
replacement string over the span. -/
def applyOne (acc : Str) (h : Nat × Nat × Str) : Str :=
  acc.take h.1 ++ h.2.2 ++ acc.drop h.2.1

/-- Embedding of highlight_text from src/app/retrieval.py lines 34 to 161. -/
def highlight_text (text : Str) (yellow_terms green_terms : List Str) : Str :=
  (filteredHighlights text yellow_terms green_terms).foldl applyOne text

/-- Rendering of spans sorted by start descending over the original text:
the text outside the spans is kept verbatim and each span is replaced by its
replacement string. -/
def renderDesc (text : Str) : List (Nat × Nat × Str) → Str
  | [] => text
  | h :: rest => renderDesc (text.take h.1) rest ++ h.2.2 ++ text.drop h.2.1

/-- Validity of a recorded raw position: the span is nonempty, lies inside the
text, and carries the verbatim slice of the text over the span. -/
def ValidPos (text : Str) (x : Nat × Nat × Str) : Prop :=
  x.1 < x.2.1 ∧ x.2.1 ≤ text.length ∧ x.2.2 = (text.drop x.1).take (x.2.1 - x.1)

/-- Validity of a combined highlight: a valid span whose replacement is a
yellow or green marker wrapped around the verbatim slice of the text. -/
def ValidHL (text : Str) (x : Nat × Nat × Str) : Prop :=
  x.1 < x.2.1 ∧ x.2.1 ≤ text.length ∧
  ∃ f, f = (text.drop x.1).take (x.2.1 - x.1) ∧ (x.2.2 = markerY f ∨ x.2.2 = markerG f)

theorem matchICAt_bound (t p : Str) (i : Nat) (hp : p ≠ []) (h : matchICAt t p i = true) :
    i + p.length ≤ t.length := by
  unfold matchICAt at h
  have heq := eq_of_beq h
  have hlen : ((t.drop i).take p.length).length = p.length := by
    have hx := congrArg List.length heq
    simpa [lowerStr] using hx
  rw [List.length_take, List.length_drop] at hlen
  have hppos : 0 < p.length := List.length_pos.mpr hp
  omega

theorem scanAux_valid (t p : Str) (useB : Bool) (hp : p ≠ []) :
    ∀ (fuel i minS : Nat) (m : Nat × Nat), m ∈ scanAux t p useB i minS fuel →
      m.1 < m.2 ∧ m.2 ≤ t.length ∧ m.2 = m.1 + p.length := by
  intro fuel
  induction fuel with
  | zero => intro i minS m hm; cases hm
  | succ fuel ih =>
    intro i minS m hm
    simp only [scanAux] at hm
    by_cases hc : (decide (minS ≤ i) && matchICAt t p i &&
        (!useB || (boundaryAt t i && boundaryAt t (i + p.length)))) = true
    · rw [if_pos hc] at hm
      rcases List.mem_cons.mp hm with h | h
      · subst h
        have hmatch : matchICAt t p i = true := by
          simp only [Bool.and_eq_true] at hc
          exact hc.1.2
        have hb := matchICAt_bound t p i hp hmatch
        have hppos : 0 < p.length := List.length_pos.mpr hp
        exact ⟨by omega, hb, rfl⟩
      · exact ih (i + 1) (i + p.length) m h
    · rw [if_neg hc] at hm
      exact ih (i + 1) minS m hm

theorem findMatches_valid (t p : Str) (useB : Bool) :
    ∀ m ∈ findMatches t p useB, m.1 < m.2 ∧ m.2 ≤ t.length := by
  intro m hm
  unfold findMatches at hm
  by_cases hp : p.isEmpty
  · rw [if_pos hp] at hm; cases hm
  · rw [if_neg hp] at hm
    have hpne : p ≠ [] := by
      intro h; subst h; exact hp rfl
    have := scanAux_valid t p useB hpne t.length 0 0 m hm
    exact ⟨this.1, this.2.1⟩

theorem foldl_preserve {α β : Type} (P : α → Prop) (step : List α → β → List α) :
    ∀ l : List β,
      (∀ acc b, b ∈ l → (∀ x ∈ acc, P x) → ∀ x ∈ step acc b, P x) →
      ∀ acc, (∀ x ∈ acc, P x) → ∀ x ∈ l.foldl step acc, P x := by
  intro l
  induction l with
  | nil => intro _ acc hacc x hx; exact hacc x hx
  | cons b l ih =>
    intro hstep acc hacc x hx
    simp only [List.foldl_cons] at hx
    refine ih (fun acc2 b2 hb2 => hstep acc2 b2 (List.mem_cons_of_mem b hb2))
      (step acc b) (hstep acc b (List.mem_cons_self b l) hacc) x hx

theorem addMatches_valid (text : Str) (acc : List (Nat × Nat × Str))
    (ms : List (Nat × Nat)) (hacc : ∀ x ∈ acc, ValidPos text x)
    (hms : ∀ m ∈ ms, m.1 < m.2 ∧ m.2 ≤ text.length) :
    ∀ x ∈ addMatches text acc ms, ValidPos text x := by
  unfold addMatches
  refine foldl_preserve (ValidPos text) _ ms ?_ acc hacc
  intro a m hm ha x hx
  by_cases hc : (a.any (fun x => x.1 == m.1 && x.2.1 == m.2)) = true
  · rw [if_pos hc] at hx; exact ha x hx
  · rw [if_neg hc] at hx
    rcases List.mem_append.mp hx with h | h
    · exact ha x h
    · rcases List.mem_singleton.mp h with h
      subst h
      exact ⟨(hms m hm).1, (hms m hm).2, rfl⟩

theorem addGreenMatches_valid (text : Str) (ypos acc : List (Nat × Nat × Str))
    (ms : List (Nat × Nat)) (hacc : ∀ x ∈ acc, ValidPos text x)
    (hms : ∀ m ∈ ms, m.1 < m.2 ∧ m.2 ≤ text.length) :
    ∀ x ∈ addGreenMatches text ypos acc ms, ValidPos text x := by
  unfold addGreenMatches
  refine foldl_preserve (ValidPos text) _ ms ?_ acc hacc
  intro a m hm ha x hx
  by_cases hc1 : (ypos.any (fun y => m.1 < y.2.1 && y.1 < m.2)) = true
  · rw [if_pos hc1] at hx; exact ha x hx
  · rw [if_neg hc1] at hx
    by_cases hc2 : (a.any (fun x => x.1 == m.1 && x.2.1 == m.2)) = true
    · rw [if_pos hc2] at hx; exact ha x hx
    · rw [if_neg hc2] at hx
      rcases List.mem_append.mp hx with h | h
      · exact ha x h
      · rcases List.mem_singleton.mp h with h
        subst h
        exact ⟨(hms m hm).1, (hms m hm).2, rfl⟩

theorem yellowPositions_valid (text : Str) (yellow_terms : List Str) :
    ∀ x ∈ yellowPositions text yellow_terms, ValidPos text x := by
  unfold yellowPositions
  refine foldl_preserve (ValidPos text) _ _ ?_ [] (by intro x hx; cases hx)
  intro acc term _ hacc x hx
  by_cases hs : stripStr term = []
  · rw [if_pos hs] at hx; exact hacc x hx
  · rw [if_neg hs] at hx
    exact addMatches_valid text _ _
      (addMatches_valid text acc _ hacc (findMatches_valid text term false))
      (findMatches_valid text term true) x hx

theorem greenPositions_valid (text : Str) (yellow_terms green_terms : List Str) :
    ∀ x ∈ greenPositions text yellow_terms green_terms, ValidPos text x := by
  unfold greenPositions
  refine foldl_preserve (ValidPos text) _ _ ?_ [] (by intro x hx; cases hx)
  intro acc term _ hacc x hx
  by_cases hs : stripStr term = []
  · rw [if_pos hs] at hx; exact hacc x hx
  · rw [if_neg hs] at hx
    by_cases hn : ((cleanTerms yellow_terms).any
        (fun y => normalize_ar term == normalize_ar y)) = true
    · rw [if_pos hn] at hx; exact hacc x hx
    · rw [if_neg hn] at hx
      exact addGreenMatches_valid text _ _ _
        (addGreenMatches_valid text _ acc _ hacc (findMatches_valid text term false))
        (findMatches_valid text term true) x hx

theorem fallbackJ_valid (text term : Str) (i : Nat) :
    ∀ x ∈ fallbackJ text term i, ValidPos text x := by
  unfold fallbackJ
  refine foldl_preserve (ValidPos text) _ _ ?_ [] (by intro x hx; cases hx)
  intro acc j _ hacc x hx
  by_cases hc : (decide (((term.drop i).take (j - i)).length > 2)) = true
  · rw [if_pos hc] at hx
    cases hh : (findMatches text ((term.drop i).take (j - i)) false).head? with
    | none => rw [hh] at hx; exact hacc x hx
    | some m =>
      rw [hh] at hx
      rcases List.mem_append.mp hx with h | h
      · exact hacc x h
      · rcases List.mem_singleton.mp h with h
        subst h
        have hmem : m ∈ findMatches text ((term.drop i).take (j - i)) false :=
          List.mem_of_mem_head? hh
        have hv := findMatches_valid text _ false m hmem
        exact ⟨hv.1, hv.2, rfl⟩
  · rw [if_neg hc] at hx
    exact hacc x hx

theorem fallbackI_valid (text term : Str) :
    ∀ x ∈ fallbackI text term, ValidPos text x := by
  unfold fallbackI
  refine foldl_preserve (ValidPos text) _ _ ?_ [] (by intro x hx; cases hx)
  intro acc i _ hacc x hx
  by_cases hc : acc ≠ []
  · rw [if_pos hc] at hx; exact hacc x hx
  · rw [if_neg hc] at hx; exact fallbackJ_valid text term i x hx

theorem fallbackPositions_valid (text : Str) (terms : List Str) :
    ∀ x ∈ fallbackPositions text terms, ValidPos text x := by
  unfold fallbackPositions
  refine foldl_preserve (ValidPos text) _ _ ?_ [] (by intro x hx; cases hx)
  intro acc term _ hacc x hx
  by_cases hc : acc ≠ []
  · rw [if_pos hc] at hx; exact hacc x hx
  · rw [if_neg hc] at hx
    by_cases hl : (decide (term.length > 3)) = true
    · rw [if_pos hl] at hx; exact fallbackI_valid text term x hx
    · rw [if_neg hl] at hx; exact hacc x hx

theorem allHighlights_valid (text : Str) (yellow_terms green_terms : List Str) :
    ∀ x ∈ allHighlights text yellow_terms green_terms, ValidHL text x := by
  intro x hx
  unfold allHighlights at hx
  rcases List.mem_append.mp hx with h | h
  · rcases List.mem_map.mp h with ⟨p, hp, hxp⟩
    have hv := yellowPositions_valid text yellow_terms p hp
    subst hxp
    exact ⟨hv.1, hv.2.1, p.2.2, by rw [hv.2.2], Or.inl rfl⟩
  · rcases List.mem_map.mp h with ⟨p, hp, hxp⟩
    have hv : ValidPos text p := by
      by_cases hc : (yellowPositions text yellow_terms = [] ∧
          greenPositions text yellow_terms green_terms = [])
      · rw [if_pos hc] at hp
        rcases List.mem_append.mp hp with h2 | h2
        · exact greenPositions_valid text yellow_terms green_terms p h2
        · exact fallbackPositions_valid text _ p h2
      · rw [if_neg hc] at hp
        exact greenPositions_valid text yellow_terms green_terms p hp
    subst hxp
    exact ⟨hv.1, hv.2.1, p.2.2, by rw [hv.2.2], Or.inr rfl⟩

theorem overlapB_symm (a b : Nat × Nat × Str) : overlapB a b = overlapB b a := by
  unfold overlapB
  by_cases h1 : a.1 < b.2.1 <;> by_cases h2 : b.1 < a.2.1 <;> simp [h1, h2]

theorem keepNonOverlapping_subset (hs : List (Nat × Nat × Str)) :
    ∀ x ∈ keepNonOverlapping hs, x ∈ hs := by
  unfold keepNonOverlapping
  refine foldl_preserve (fun x => x ∈ hs) _ hs ?_ [] (by intro x hx; cases hx)
  intro kept h hh hkept x hx
  by_cases hc : (kept.any (fun f => overlapB h f)) = true
  · rw [if_pos hc] at hx; exact hkept x hx
  · rw [if_neg hc] at hx
    rcases List.mem_append.mp hx with h2 | h2
    · exact hkept x h2
    · rcases List.mem_singleton.mp h2 with h2; subst h2; exact hh

theorem keepNonOverlapping_pairwise (hs : List (Nat × Nat × Str)) :
    (keepNonOverlapping hs).Pairwise (fun a b => overlapB a b = false) := by
  unfold keepNonOverlapping
  suffices key : ∀ (l kept : List (Nat × Nat × Str)),
      kept.Pairwise (fun a b => overlapB a b = false) →
      (l.foldl (fun kept h =>
        if kept.any (fun f => overlapB h f) then kept else kept ++ [h])
        kept).Pairwise (fun a b => overlapB a b = false) by
    exact key hs [] List.Pairwise.nil
  intro l
  induction l with
  | nil => intro kept hk; exact hk
  | cons h l ih =>
    intro kept hk
    simp only [List.foldl_cons]
    by_cases hc : (kept.any (fun f => overlapB h f)) = true
    · rw [if_pos hc]; exact ih kept hk
    · rw [if_neg hc]
      refine ih (kept ++ [h]) ?_
      rw [List.pairwise_append]
      refine ⟨hk, List.pairwise_singleton _ _, ?_⟩
      intro a ha b hb
      rcases List.mem_singleton.mp hb with hb; subst hb
      have hnot : ¬ (overlapB b a = true) := fun hof =>
        hc (List.any_eq_true.mpr ⟨a, ha, hof⟩)
      rw [overlapB_symm]
      cases hcase : overlapB b a with
      | false => rfl
      | true => exact absurd hcase hnot

theorem sortHighlightsByLenDesc_perm (hs : List (Nat × Nat × Str)) :
    List.Perm (sortHighlightsByLenDesc hs) hs := by
  unfold sortHighlightsByLenDesc
  have h1 := List.perm_insertionSort
    (fun a b : Nat × Nat × Nat × Str =>
      b.2.2.1 - b.2.1 < a.2.2.1 - a.2.1 ∨
      (a.2.2.1 - a.2.1 = b.2.2.1 - b.2.1 ∧ a.1 ≤ b.1)) hs.enum
  have h2 := h1.map Prod.snd
  simpa [List.enum_map_snd] using h2

theorem sortHighlightsByStartDesc_perm (hs : List (Nat × Nat × Str)) :
    List.Perm (sortHighlightsByStartDesc hs) hs := by
  unfold sortHighlightsByStartDesc
  have h1 := List.perm_insertionSort
    (fun a b : Nat × Nat × Nat × Str =>
      b.2.1 < a.2.1 ∨ (a.2.1 = b.2.1 ∧ a.1 ≤ b.1)) hs.enum
  have h2 := h1.map Prod.snd
  simpa [List.enum_map_snd] using h2

theorem sortHighlightsByStartDesc_sorted (hs : List (Nat × Nat × Str)) :
    (sortHighlightsByStartDesc hs).Pairwise (fun a b => b.1 ≤ a.1) := by
  unfold sortHighlightsByStartDesc
  haveI htot : IsTotal (Nat × Nat × Nat × Str)
      (fun a b => b.2.1 < a.2.1 ∨ (a.2.1 = b.2.1 ∧ a.1 ≤ b.1)) := by
    constructor; intro a b; omega
  haveI htr : IsTrans (Nat × Nat × Nat × Str)
      (fun a b => b.2.1 < a.2.1 ∨ (a.2.1 = b.2.1 ∧ a.1 ≤ b.1)) := by
    constructor; intro a b c hab hbc; omega
  have hsorted := List.sorted_insertionSort
    (fun a b : Nat × Nat × Nat × Str =>
      b.2.1 < a.2.1 ∨ (a.2.1 = b.2.1 ∧ a.1 ≤ b.1)) hs.enum
  refine List.pairwise_map.mpr (hsorted.imp ?_)
  intro a b hab
  rcases hab with h | ⟨h, _⟩
  · exact Nat.le_of_lt h
  · exact Nat.le_of_eq h.symm

theorem filteredHighlights_valid (text : Str) (yellow_terms green_terms : List Str) :
    ∀ x ∈ filteredHighlights text yellow_terms green_terms, ValidHL text x := by
  intro x hx
  unfold filteredHighlights at hx
  have h1 := (sortHighlightsByStartDesc_perm _).mem_iff.mp hx
  have h2 := keepNonOverlapping_subset _ x h1
  have h3 := (sortHighlightsByLenDesc_perm _).mem_iff.mp h2
  exact allHighlights_valid text yellow_terms green_terms x h3

theorem filteredHighlights_desc (text : Str) (yellow_terms green_terms : List Str) :
    (filteredHighlights text yellow_terms green_terms).Pairwise
      (fun a b => b.2.1 ≤ a.1) := by
  have hvalid := filteredHighlights_valid text yellow_terms green_terms
  have hsorted := sortHighlightsByStartDesc_sorted (keepNonOverlapping
    (sortHighlightsByLenDesc (allHighlights text yellow_terms green_terms)))
  have hperm := sortHighlightsByStartDesc_perm (keepNonOverlapping
    (sortHighlightsByLenDesc (allHighlights text yellow_terms green_terms)))
  have hpair0 := keepNonOverlapping_pairwise
    (sortHighlightsByLenDesc (allHighlights text yellow_terms green_terms))
  have hsymm : ∀ {x y : Nat × Nat × Str},
      overlapB x y = false → overlapB y x = false := by
    intro x y h; rw [overlapB_symm]; exact h
  have hpair : (filteredHighlights text yellow_terms green_terms).Pairwise
      (fun a b => overlapB a b = false) :=
    (hperm.pairwise_iff hsymm).mpr hpair0
  have hcomb := hsorted.and hpair
  refine hcomb.imp_of_mem ?_
  intro a b ha hb hab
  have hva := hvalid a ha
  have hvb := hvalid b hb
  have h1 : a.1 < a.2.1 := hva.1
  have h2 : b.1 < b.2.1 := hvb.1
  have h3 : b.1 ≤ a.1 := hab.1
  have h4 : overlapB a b = false := hab.2
  unfold overlapB at h4
  simp only [Bool.and_eq_false_iff, decide_eq_false_iff_not, Nat.not_lt] at h4
  omega

theorem foldl_applyOne_shift (L : List (Nat × Nat × Str)) :
    ∀ (u w : Str), L.Pairwise (fun a b => b.2.1 ≤ a.1) →
      (∀ x ∈ L, x.1 < x.2.1 ∧ x.2.1 ≤ u.length) →
      L.foldl applyOne (u ++ w) = L.foldl applyOne u ++ w := by
  induction L with
  | nil => intro u w _ _; rfl
  | cons h L ih =>
    intro u w hpair hb
    simp only [List.foldl_cons]
    have hh := hb h (List.mem_cons_self h L)
    have happ : applyOne (u ++ w) h = applyOne u h ++ w := by
      unfold applyOne
      rw [List.take_append_of_le_length (by omega),
        List.drop_append_of_le_length hh.2]
      simp
    rw [happ]
    refine ih (applyOne u h) w hpair.of_cons ?_
    intro x hx
    have hxL := hb x (List.mem_cons_of_mem h hx)
    have hxh : x.2.1 ≤ h.1 := List.rel_of_pairwise_cons hpair hx
    refine ⟨hxL.1, ?_⟩
    have hlen : h.1 ≤ (applyOne u h).length := by
      unfold applyOne
      rw [List.length_append, List.length_append, List.length_take]
      omega
    omega

theorem foldl_applyOne_render (L : List (Nat × Nat × Str)) :
    ∀ (text : Str), L.Pairwise (fun a b => b.2.1 ≤ a.1) →
      (∀ x ∈ L, x.1 < x.2.1 ∧ x.2.1 ≤ text.length) →
      L.foldl applyOne text = renderDesc text L := by
  induction L with
  | nil => intro text _ _; rfl
  | cons h L ih =>
    intro text hpair hb
    simp only [List.foldl_cons, renderDesc]
    have hh := hb h (List.mem_cons_self h L)
    have hsplit : applyOne text h = text.take h.1 ++ (h.2.2 ++ text.drop h.2.1) := by
      unfold applyOne; rw [List.append_assoc]
    have hrest : ∀ x ∈ L, x.1 < x.2.1 ∧ x.2.1 ≤ (text.take h.1).length := by
      intro x hx
      have h1 := hb x (List.mem_cons_of_mem h hx)
      have h2 : x.2.1 ≤ h.1 := List.rel_of_pairwise_cons hpair hx
      rw [List.length_take]
      exact ⟨h1.1, by omega⟩
    rw [hsplit, foldl_applyOne_shift L (text.take h.1) (h.2.2 ++ text.drop h.2.1)
      hpair.of_cons hrest]
    rw [ih (text.take h.1) hpair.of_cons hrest, ← List.append_assoc]

/-- Claim C7: highlighter output integrity. The surviving spans of
highlight_text are pairwise disjoint (in the application order, sorted by
start descending, every later span ends at or before the start of every
earlier span, so no two inserted marker spans overlap); every surviving span
wraps a yellow or green marker around exactly the verbatim slice of the
original excerpt over that span, casing included; and the output equals the
rendering that keeps every character of the original excerpt outside the
spans untouched and splices the markers over the spans. -/
theorem highlight_text_integrity (text : Str) (yellow_terms green_terms : List Str) :
    (filteredHighlights text yellow_terms green_terms).Pairwise
      (fun a b => b.2.1 ≤ a.1) ∧
    (∀ x ∈ filteredHighlights text yellow_terms green_terms, ValidHL text x) ∧
    highlight_text text yellow_terms green_terms =
      renderDesc text (filteredHighlights text yellow_terms green_terms) := by
  have hdesc := filteredHighlights_desc text yellow_terms green_terms
  have hvalid := filteredHighlights_valid text yellow_terms green_terms
  refine ⟨hdesc, hvalid, ?_⟩
  unfold highlight_text
  exact foldl_applyOne_render _ text hdesc
    (fun x hx => ⟨(hvalid x hx).1, (hvalid x hx).2.1⟩)

/-- Chunk metadata record as read by search from indices.meta; the roles
field is an Option to model a chunk dict without a roles key (the source uses
meta.get with default), and likewise the page fields. -/
structure ChunkMeta where
  doc_id : Str
  text : Str
  article_no : Option Str
  pages : List Nat
  page_start : Option Nat
  page_end : Option Nat
  roles : Option (List Str)
deriving DecidableEq

/-- One citation record assembled by search (lines 328 to 336). -/
structure SearchHit where
  rank : Nat
  doc_id : Str
  article_no : Option Str
  page_start : Option Nat
  page_end : Option Nat
  score : ℚ
  excerpt : Str
deriving DecidableEq

/-- Stable ascending argsort over a list of rationals, modelling numpy argsort;
ties are ordered by index, matching the stable behavior numpy exhibits on the
small arrays involved (only the order among equal keys depends on this). -/
def argsortAsc (l : List ℚ) : List Nat :=
  (List.range l.length).insertionSort
    (fun i j => l.getD i 0 < l.getD j 0 ∨ (l.getD i 0 = l.getD j 0 ∧ i ≤ j))

/-- Indexing of a score array by a list of candidate indices (line 304); an
out of range index models the IndexError numpy indexing would raise. -/
def lookAll (l : List ℚ) : List Nat → Except Unit (List ℚ)
  | [] => .ok []
  | i :: is =>
    match l[i]? with
    | none => .error ()
    | some x =>
      match lookAll l is with
      | .error e => .error e
      | .ok xs => .ok (x :: xs)

/-- Dense score lookup of line 306: the score at the first position of the
candidate in the dense rank list, 0.0 when the candidate is absent; an out of
range position into the score array models the IndexError. -/
def vcLook (vecRanks : List Nat) (vecScores : List ℚ) : List Nat → Except Unit (List ℚ)
  | [] => .ok []
  | i :: is =>
    match (if vecRanks.contains i then vecScores[vecRanks.indexOf i]? else some 0) with
    | none => .error ()
    | some x =>
      match vcLook vecRanks vecScores is with
      | .error e => .error e
      | .ok xs => .ok (x :: xs)

/-- Embedding of the candidate fusion stage of search, src/app/retrieval.py
lines 293 to 309: top lexical indices (argsort descending, cut at bm25_k),
candidate union (a Python set, modelled in first seen order), raw score
lookups, independent min max normalization, weighted linear fusion, and the
descending traversal order over the fused scores. The full bm25 score vector
and the faiss output lists are inputs, being external scorer results; the
faiss indices are taken nonnegative. -/
def fuseStage (bm25_scores : List ℚ) (vecRanks : List Nat) (vecScores : List ℚ)
    (bm25_k : Nat) (alpha : ℚ) :
    Except Unit (List Nat × List ℚ × List Nat) :=
  let bm25_ranks := ((argsortAsc bm25_scores).reverse).take bm25_k
  let cand_ids := dedupKeepFirst (bm25_ranks ++ vecRanks)
  match lookAll bm25_scores cand_ids with
  | .error e => .error e
  | .ok bm =>
    match vcLook vecRanks vecScores cand_ids with
    | .error e => .error e
    | .ok vc =>
      let bm_n := minmax_norm bm
      let vc_n := minmax_norm vc
      let final := List.zipWith (fun v b => alpha * v + (1 - alpha) * b) vc_n bm_n
      let order := (argsortAsc final).reverse
      .ok (cand_ids, final, order)

/-- Declared role gate of search line 318: a candidate is skipped exactly when
the requester role list is nonempty and disjoint from the chunk roles. -/
def rbacSkips (roles doc_roles : List Str) : Bool :=
  !roles.isEmpty && (interRoles roles doc_roles).isEmpty

/-- Assembly of one citation record of search, lines 321 to 336: snippet of
the first 700 characters with newlines replaced by spaces, highlighting, page
fallbacks (first and last of pages, or the explicit page fields), the fused
score and the running rank. -/
def mkHit (m : ChunkMeta) (rank : Nat) (sc : ℚ) (yellow green : List Str) : SearchHit :=
  let snippet := (m.text.take 700).map (fun c => if c = '\n' then ' ' else c)
  ⟨rank, m.doc_id, m.article_no,
    (match m.pages with
      | [] => m.page_start
      | p :: _ => some p),
    (match m.pages with
      | [] => m.page_end
      | _ :: _ => m.pages.getLast?),
    sc, highlight_text snippet yellow green⟩

/-- Embedding of the result assembly loop of search, lines 311 to 339:
traverse the fused order, apply the declared role gate, build the citation
record with snippet highlighting and page fallbacks, and stop once topk
results are collected (the comparison uses the possibly negative topk as an
integer, exactly as Python does). -/
def buildResults (meta : List ChunkMeta) (cand_ids : List Nat) (final : List ℚ)
    (roles : List Str) (topk : Int) (yellow green : List Str) :
    List Nat → List SearchHit → Except Unit (List SearchHit)
  | [], acc => .ok acc
  | j :: rest, acc =>
    match cand_ids[j]? with
    | none => .error ()
    | some idx =>
      match meta[idx]? with
      | none => .error ()
      | some m =>
        if rbacSkips roles (m.roles.getD []) then
          buildResults meta cand_ids final roles topk yellow green rest acc
        else
          match final[j]? with
          | none => .error ()
          | some sc =>
            let acc2 := acc ++ [mkHit m (acc.length + 1) sc yellow green]
            if topk ≤ (acc2.length : Int) then .ok acc2
            else buildResults meta cand_ids final roles topk yellow green rest acc2

/-- Test for the full match of the regex of Latin letters and whitespace used
at lines 275 and 280 of src/app/retrieval.py. -/
def isLatinSpace (s : Str) : Bool :=
  !s.isEmpty && s.all (fun c => ('a' ≤ c ∧ c ≤ 'z') ∨ ('A' ≤ c ∧ c ≤ 'Z') ∨ isSpacePy c)

/-- Test for the full match of the regex of Arabic block characters and
whitespace used at line 284. -/
def isArabicSpace (s : Str) : Bool :=
  !s.isEmpty && s.all (fun c => (0x0600 ≤ c.val ∧ c.val ≤ 0x06FF) ∨ isSpacePy c)

/-- Cross language yellow term additions of search, lines 274 to 291: for a
purely Latin query add the glossary entries with a Latin synonym matching the
lowered query by substring either way; for a purely Arabic query add the
Latin synonyms of the glossary entries matching the query by substring. -/
def crossLangTerms (glossary : Glossary) (oq : Str) : List Str :=
  if isLatinSpace oq then
    glossary.foldl (fun acc e =>
      if e.2.any (fun syn => isLatinSpace syn &&
          (isSubstr (lowerStr oq) (lowerStr syn) || isSubstr (lowerStr syn) (lowerStr oq))) then
        acc ++ (e.1 :: e.2)
      else acc) []
  else if isArabicSpace oq then
    glossary.foldl (fun acc e =>
      if isSubstr oq e.1 || isSubstr e.1 oq ||
          e.2.any (fun syn => isSubstr oq syn || isSubstr syn oq) then
        acc ++ e.2.filter (fun syn => isLatinSpace syn)
      else acc) []
  else []

/-- Embedding of search from src/app/retrieval.py lines 258 to 342. The
external services are inputs: bm25_scores is the full lexical score vector the
bm25 scorer returns for the tokenized query, vecRanks and vecScores are the
faiss results for the encoded normalized query, and glossary is the loaded
glossary. Errors model the IndexError a bad external index would raise; the
source performs no parameter validation of its own. -/
def search (meta : List ChunkMeta) (bm25_scores : List ℚ) (vecRanks : List Nat)
    (vecScores : List ℚ) (glossary : Glossary) (query : Str) (roles : List Str)
    (topk : Int) (bm25_k : Nat) (alpha : ℚ) : Except Unit (Str × List SearchHit) :=
  let q_tokens := tokenize_ar query
  let original_query := stripStr query
  let green_terms := expand_terms_from_glossary query glossary
  let yellow_terms := dedupKeepFirst (q_tokens ++ [original_query]) ++
    crossLangTerms glossary original_query
  match fuseStage bm25_scores vecRanks vecScores bm25_k alpha with
  | .error e => .error e
  | .ok (cand_ids, final, order) =>
    match buildResults meta cand_ids final roles topk yellow_terms green_terms order [] with
    | .error e => .error e
    | .ok results =>
      let answer := match results with
        | [] => ts "لم يتم العثور على نتيجة ذات صلة."
        | r :: _ => r.excerpt
      .ok (answer, results)

/-- Embedding of filter_documents_by_access from src/app/auth.py lines 178 to
187, applied to the citation records of the ask endpoint. -/
def filter_documents_by_access (user_roles : List Str) (docs : List SearchHit) :
    List SearchHit :=
  docs.filter (fun d => check_file_access user_roles d.doc_id)

/-- Embedding of the retention pipeline of the ask endpoint, src/app/run_api.py
lines 962 to 991: search is called with the effective roles of the user, and
the results are then filtered with check_file_access against the declared
roles. -/
def askResults (meta : List ChunkMeta) (bm25_scores : List ℚ) (vecRanks : List Nat)
    (vecScores : List ℚ) (glossary : Glossary) (query : Str) (declared : List Str)
    (topk : Int) (bm25_k : Nat) (alpha : ℚ) : Except Unit (List SearchHit) :=
  match search meta bm25_scores vecRanks vecScores glossary query
      (get_effective_roles declared) topk bm25_k alpha with
  | .error e => .error e
  | .ok out => .ok (filter_documents_by_access declared out.2)

theorem lookAll_ok_length (l : List ℚ) :
    ∀ (is : List Nat) (xs : List ℚ), lookAll l is = .ok xs → xs.length = is.length := by
  intro is
  induction is with
  | nil => intro xs h; cases h; rfl
  | cons i is ih =>
    intro xs h
    simp only [lookAll] at h
    cases hi : l[i]? with
    | none => rw [hi] at h; cases h
    | some x =>
      rw [hi] at h
      cases hr : lookAll l is with
      | error e => rw [hr] at h; cases h
      | ok ys =>
        rw [hr] at h
        cases h
        simp [ih ys hr]

theorem lookAll_ok_exists (l : List ℚ) :
    ∀ is : List Nat, (∀ i ∈ is, i < l.length) → ∃ xs, lookAll l is = .ok xs := by
  intro is
  induction is with
  | nil => intro _; exact ⟨[], rfl⟩
  | cons i is ih =>
    intro hb
    obtain ⟨xs, hxs⟩ := ih (fun j hj => hb j (List.mem_cons_of_mem i hj))
    have hi : i < l.length := hb i (List.mem_cons_self i is)
    refine ⟨l[i] :: xs, ?_⟩
    simp only [lookAll]
    rw [List.getElem?_eq_getElem hi, hxs]

theorem vcLook_ok_length (vecRanks : List Nat) (vecScores : List ℚ) :
    ∀ (is : List Nat) (xs : List ℚ), vcLook vecRanks vecScores is = .ok xs →
      xs.length = is.length := by
  intro is
  induction is with
  | nil => intro xs h; cases h; rfl
  | cons i is ih =>
    intro xs h
    simp only [vcLook] at h
    cases hi : (if vecRanks.contains i then vecScores[vecRanks.indexOf i]? else some 0) with
    | none => rw [hi] at h; cases h
    | some x =>
      rw [hi] at h
      cases hr : vcLook vecRanks vecScores is with
      | error e => rw [hr] at h; cases h
      | ok ys =>
        rw [hr] at h
        cases h
        simp [ih ys hr]

theorem vcLook_ok_exists (vecRanks : List Nat) (vecScores : List ℚ)
    (hlen : vecRanks.length ≤ vecScores.length) :
    ∀ is : List Nat, ∃ xs, vcLook vecRanks vecScores is = .ok xs := by
  intro is
  induction is with
  | nil => exact ⟨[], rfl⟩
  | cons i is ih =>
    obtain ⟨xs, hxs⟩ := ih
    by_cases hc : vecRanks.contains i = true
    · have hmem : i ∈ vecRanks := by simpa using hc
      have hidx : vecRanks.indexOf i < vecRanks.length := List.indexOf_lt_length.mpr hmem
      have hidx2 : vecRanks.indexOf i < vecScores.length := Nat.lt_of_lt_of_le hidx hlen
      refine ⟨vecScores[vecRanks.indexOf i] :: xs, ?_⟩
      simp only [vcLook]
      rw [if_pos hc, List.getElem?_eq_getElem hidx2, hxs]
    · refine ⟨0 :: xs, ?_⟩
      simp only [vcLook]
      rw [if_neg hc, hxs]

theorem minmax_norm_length (a : List ℚ) : (minmax_norm a).length = a.length := by
  unfold minmax_norm
  by_cases h : a = []
  · rw [if_pos h]
  · rw [if_neg h]
    by_cases hc : listMax a - listMin a < eps
    · rw [if_pos hc]; simp
    · rw [if_neg hc]; simp

theorem argsortAsc_perm (l : List ℚ) :
    List.Perm (argsortAsc l) (List.range l.length) :=
  List.perm_insertionSort _ _

theorem argsortAsc_mem (l : List ℚ) (j : Nat) (h : j ∈ argsortAsc l) : j < l.length := by
  have := (argsortAsc_perm l).mem_iff.mp h
  exact List.mem_range.mp this

theorem map_getD_range {α : Type} (d : α) (l : List α) :
    (List.range l.length).map (fun j => l.getD j d) = l := by
  apply List.ext_getElem
  · simp
  · intro i h1 h2
    simp only [List.getElem_map, List.getElem_range]
    exact List.getD_eq_getElem l d h2

theorem fuseStage_ok_shape (bm25_scores : List ℚ) (vecRanks : List Nat)
    (vecScores : List ℚ) (bm25_k : Nat) (alpha : ℚ)
    (cand_ids : List Nat) (final : List ℚ) (order : List Nat)
    (h : fuseStage bm25_scores vecRanks vecScores bm25_k alpha =
      .ok (cand_ids, final, order)) :
    cand_ids = dedupKeepFirst (((argsortAsc bm25_scores).reverse).take bm25_k ++ vecRanks) ∧
    final.length = cand_ids.length ∧
    order = (argsortAsc final).reverse := by
  simp only [fuseStage] at h
  cases hbm : lookAll bm25_scores
      (dedupKeepFirst (((argsortAsc bm25_scores).reverse).take bm25_k ++ vecRanks)) with
  | error e => rw [hbm] at h; cases h
  | ok bm =>
    rw [hbm] at h
    cases hvc : vcLook vecRanks vecScores
        (dedupKeepFirst (((argsortAsc bm25_scores).reverse).take bm25_k ++ vecRanks)) with
    | error e => rw [hvc] at h; cases h
    | ok vc =>
      rw [hvc] at h
      simp only [Except.ok.injEq, Prod.mk.injEq] at h
      obtain ⟨h1, h2, h3⟩ := h
      subst h1
      refine ⟨rfl, ?_, ?_⟩
      · rw [← h2]
        rw [List.length_zipWith, minmax_norm_length, minmax_norm_length,
          lookAll_ok_length bm25_scores _ bm hbm, vcLook_ok_length vecRanks vecScores _ vc hvc]
        simp
      · rw [← h3, ← h2]

theorem fuseStage_cands_lt (bm25_scores : List ℚ) (vecRanks : List Nat)
    (bm25_k : Nat) (h1 : ∀ i ∈ vecRanks, i < bm25_scores.length) :
    ∀ i ∈ dedupKeepFirst (((argsortAsc bm25_scores).reverse).take bm25_k ++ vecRanks),
      i < bm25_scores.length := by
  intro i hi
  rw [mem_dedupKeepFirst] at hi
  rcases List.mem_append.mp hi with h | h
  · have h2 := List.mem_of_mem_take h
    have h3 := List.mem_reverse.mp h2
    exact argsortAsc_mem bm25_scores i h3
  · exact h1 i h

theorem fuseStage_ok_exists (bm25_scores : List ℚ) (vecRanks : List Nat)
    (vecScores : List ℚ) (bm25_k : Nat) (alpha : ℚ)
    (h1 : ∀ i ∈ vecRanks, i < bm25_scores.length)
    (h3 : vecRanks.length ≤ vecScores.length) :
    ∃ c f o, fuseStage bm25_scores vecRanks vecScores bm25_k alpha = .ok (c, f, o) := by
  obtain ⟨bm, hbm⟩ := lookAll_ok_exists bm25_scores _
    (fuseStage_cands_lt bm25_scores vecRanks bm25_k h1)
  obtain ⟨vc, hvc⟩ := vcLook_ok_exists vecRanks vecScores h3
    (dedupKeepFirst (((argsortAsc bm25_scores).reverse).take bm25_k ++ vecRanks))
  refine ⟨dedupKeepFirst (((argsortAsc bm25_scores).reverse).take bm25_k ++ vecRanks),
    List.zipWith (fun v b => alpha * v + (1 - alpha) * b) (minmax_norm vc) (minmax_norm bm),
    (argsortAsc (List.zipWith (fun v b => alpha * v + (1 - alpha) * b)
      (minmax_norm vc) (minmax_norm bm))).reverse, ?_⟩
  simp only [fuseStage]
  rw [hbm, hvc]

/-- Provenance of a retained citation: it names the document of some chunk of
the collection, and that chunk passed the declared role gate. -/
def HitFromChunk (meta : List ChunkMeta) (roles : List Str) (h : SearchHit) : Prop :=
  ∃ (i : Nat) (m : ChunkMeta), meta[i]? = some m ∧ h.doc_id = m.doc_id ∧
    (roles = [] ∨ interRoles roles (m.roles.getD []) ≠ [])

theorem rbacSkips_empty (doc_roles : List Str) : rbacSkips [] doc_roles = false := by
  simp [rbacSkips]

theorem rbacSkips_false_cases (roles doc_roles : List Str)
    (h : rbacSkips roles doc_roles = false) :
    roles = [] ∨ interRoles roles doc_roles ≠ [] := by
  unfold rbacSkips at h
  cases hr : roles.isEmpty with
  | true => exact Or.inl (List.isEmpty_iff.mp hr)
  | false =>
    right
    rw [hr] at h
    simp only [Bool.not_false, Bool.true_and] at h
    intro hEq
    rw [hEq] at h
    cases h

theorem interRoles_nil (roles : List Str) : interRoles roles [] = [] := by
  simp [interRoles]

theorem buildResults_cons_none (meta : List ChunkMeta) (cand_ids : List Nat)
    (final : List ℚ) (roles : List Str) (topk : Int) (yellow green : List Str)
    (j : Nat) (rest : List Nat) (acc : List SearchHit)
    (hc : cand_ids[j]? = none) :
    buildResults meta cand_ids final roles topk yellow green (j :: rest) acc =
      .error () := by
  simp [buildResults, hc]

theorem buildResults_cons_meta_none (meta : List ChunkMeta) (cand_ids : List Nat)
    (final : List ℚ) (roles : List Str) (topk : Int) (yellow green : List Str)
    (j idx : Nat) (rest : List Nat) (acc : List SearchHit)
    (hc : cand_ids[j]? = some idx) (hm : meta[idx]? = none) :
    buildResults meta cand_ids final roles topk yellow green (j :: rest) acc =
      .error () := by
  simp [buildResults, hc, hm]

theorem buildResults_cons_skip (meta : List ChunkMeta) (cand_ids : List Nat)
    (final : List ℚ) (roles : List Str) (topk : Int) (yellow green : List Str)
    (j idx : Nat) (rest : List Nat) (acc : List SearchHit) (m : ChunkMeta)
    (hc : cand_ids[j]? = some idx) (hm : meta[idx]? = some m)
    (hs : rbacSkips roles (m.roles.getD []) = true) :
    buildResults meta cand_ids final roles topk yellow green (j :: rest) acc =
      buildResults meta cand_ids final roles topk yellow green rest acc := by
  simp [buildResults, hc, hm, hs]

theorem buildResults_cons_final_none (meta : List ChunkMeta) (cand_ids : List Nat)
    (final : List ℚ) (roles : List Str) (topk : Int) (yellow green : List Str)
    (j idx : Nat) (rest : List Nat) (acc : List SearchHit) (m : ChunkMeta)
    (hc : cand_ids[j]? = some idx) (hm : meta[idx]? = some m)
    (hs : rbacSkips roles (m.roles.getD []) = false) (hf : final[j]? = none) :
    buildResults meta cand_ids final roles topk yellow green (j :: rest) acc =
      .error () := by
  simp [buildResults, hc, hm, hs, hf]

theorem buildResults_cons_keep (meta : List ChunkMeta) (cand_ids : List Nat)
    (final : List ℚ) (roles : List Str) (topk : Int) (yellow green : List Str)
    (j idx : Nat) (rest : List Nat) (acc : List SearchHit) (m : ChunkMeta) (sc : ℚ)
    (hc : cand_ids[j]? = some idx) (hm : meta[idx]? = some m)
    (hs : rbacSkips roles (m.roles.getD []) = false) (hf : final[j]? = some sc) :
    buildResults meta cand_ids final roles topk yellow green (j :: rest) acc =
      (if topk ≤ ((acc ++ [mkHit m (acc.length + 1) sc yellow green]).length : Int) then
        .ok (acc ++ [mkHit m (acc.length + 1) sc yellow green])
      else buildResults meta cand_ids final roles topk yellow green rest
        (acc ++ [mkHit m (acc.length + 1) sc yellow green])) := by
  simp [buildResults, hc, hm, hs, hf]

theorem buildResults_sound (meta : List ChunkMeta) (cand_ids : List Nat)
    (final : List ℚ) (roles : List Str) (topk : Int) (yellow green : List Str) :
    ∀ (order : List Nat) (acc res : List SearchHit),
      (∀ h ∈ acc, HitFromChunk meta roles h) →
      buildResults meta cand_ids final roles topk yellow green order acc = .ok res →
      ∀ h ∈ res, HitFromChunk meta roles h := by
  intro order
  induction order with
  | nil =>
    intro acc res hacc hok h hh
    simp only [buildResults] at hok
    cases hok
    exact hacc h hh
  | cons j rest ih =>
    intro acc res hacc hok h hh
    cases hc : cand_ids[j]? with
    | none =>
      rw [buildResults_cons_none meta cand_ids final roles topk yellow green
        j rest acc hc] at hok
      cases hok
    | some idx =>
      cases hm : meta[idx]? with
      | none =>
        rw [buildResults_cons_meta_none meta cand_ids final roles topk yellow green
          j idx rest acc hc hm] at hok
        cases hok
      | some m =>
        cases hskip : rbacSkips roles (m.roles.getD []) with
        | true =>
          rw [buildResults_cons_skip meta cand_ids final roles topk yellow green
            j idx rest acc m hc hm hskip] at hok
          exact ih acc res hacc hok h hh
        | false =>
          cases hf : final[j]? with
          | none =>
            rw [buildResults_cons_final_none meta cand_ids final roles topk yellow green
              j idx rest acc m hc hm hskip hf] at hok
            cases hok
          | some sc =>
            rw [buildResults_cons_keep meta cand_ids final roles topk yellow green
              j idx rest acc m sc hc hm hskip hf] at hok
            have hhit : HitFromChunk meta roles (mkHit m (acc.length + 1) sc yellow green) :=
              ⟨idx, m, hm, rfl, rbacSkips_false_cases roles (m.roles.getD []) hskip⟩
            have hacc2 : ∀ x ∈ acc ++ [mkHit m (acc.length + 1) sc yellow green],
                HitFromChunk meta roles x := by
              intro x hx
              rcases List.mem_append.mp hx with h2 | h2
              · exact hacc x h2
              · rcases List.mem_singleton.mp h2 with h2
                subst h2; exact hhit
            by_cases htop : topk ≤
                ((acc ++ [mkHit m (acc.length + 1) sc yellow green]).length : Int)
            · rw [if_pos htop] at hok
              cases hok
              exact hacc2 h hh
            · rw [if_neg htop] at hok
              exact ih _ res hacc2 hok h hh

theorem buildResults_ok (meta : List ChunkMeta) (cand_ids : List Nat)
    (final : List ℚ) (roles : List Str) (topk : Int) (yellow green : List Str) :
    ∀ (order : List Nat) (acc : List SearchHit),
      (∀ j ∈ order, j < cand_ids.length ∧ j < final.length) →
      (∀ i ∈ cand_ids, i < meta.length) →
      ∃ res, buildResults meta cand_ids final roles topk yellow green order acc = .ok res := by
  intro order
  induction order with
  | nil => intro acc _ _; exact ⟨acc, rfl⟩
  | cons j rest ih =>
    intro acc hj hcand
    have hjj := hj j (List.mem_cons_self j rest)
    have h1 : j < cand_ids.length := hjj.1
    have h2 : j < final.length := hjj.2
    have hrest : ∀ j2 ∈ rest, j2 < cand_ids.length ∧ j2 < final.length :=
      fun j2 hj2 => hj j2 (List.mem_cons_of_mem j hj2)
    have hidx : cand_ids[j] < meta.length := hcand _ (List.getElem_mem h1)
    have hc : cand_ids[j]? = some cand_ids[j] := List.getElem?_eq_getElem h1
    have hm : meta[cand_ids[j]]? = some meta[cand_ids[j]] := List.getElem?_eq_getElem hidx
    have hf : final[j]? = some final[j] := List.getElem?_eq_getElem h2
    cases hskip : rbacSkips roles ((meta[cand_ids[j]]).roles.getD []) with
    | true =>
      obtain ⟨res, hres⟩ := ih acc hrest hcand
      exact ⟨res, by
        rw [buildResults_cons_skip meta cand_ids final roles topk yellow green
          j cand_ids[j] rest acc meta[cand_ids[j]] hc hm hskip]
        exact hres⟩
    | false =>
      by_cases htop : topk ≤
          ((acc ++ [mkHit meta[cand_ids[j]] (acc.length + 1) final[j] yellow green]).length : Int)
      · refine ⟨acc ++ [mkHit meta[cand_ids[j]] (acc.length + 1) final[j] yellow green], ?_⟩
        rw [buildResults_cons_keep meta cand_ids final roles topk yellow green
          j cand_ids[j] rest acc meta[cand_ids[j]] final[j] hc hm hskip hf]
        rw [if_pos htop]
      · obtain ⟨res, hres⟩ :=
          ih (acc ++ [mkHit meta[cand_ids[j]] (acc.length + 1) final[j] yellow green])
            hrest hcand
        refine ⟨res, ?_⟩
        rw [buildResults_cons_keep meta cand_ids final roles topk yellow green
          j cand_ids[j] rest acc meta[cand_ids[j]] final[j] hc hm hskip hf]
        rw [if_neg htop]
        exact hres

theorem search_unfold_ok (meta : List ChunkMeta) (bm25_scores : List ℚ)
    (vecRanks : List Nat) (vecScores : List ℚ) (gl : Glossary) (query : Str)
    (roles : List Str) (topk : Int) (bm25_k : Nat) (alpha : ℚ)
    (c : List Nat) (f : List ℚ) (o : List Nat) (results : List SearchHit)
    (hfs : fuseStage bm25_scores vecRanks vecScores bm25_k alpha = .ok (c, f, o))
    (hbr : buildResults meta c f roles topk
      (dedupKeepFirst (tokenize_ar query ++ [stripStr query]) ++
        crossLangTerms gl (stripStr query))
      (expand_terms_from_glossary query gl) o [] = .ok results) :
    search meta bm25_scores vecRanks vecScores gl query roles topk bm25_k alpha =
      .ok ((match results with
        | [] => ts "لم يتم العثور على نتيجة ذات صلة."
        | r :: _ => r.excerpt), results) := by
  simp only [search, hfs, hbr]
  cases results with
  | nil => rfl
  | cons r t => rfl

theorem search_results_sound (meta : List ChunkMeta) (bm25_scores : List ℚ)
    (vecRanks : List Nat) (vecScores : List ℚ) (gl : Glossary) (query : Str)
    (roles : List Str) (topk : Int) (bm25_k : Nat) (alpha : ℚ) (ans : Str)
    (res : List SearchHit)
    (hok : search meta bm25_scores vecRanks vecScores gl query roles topk bm25_k alpha =
      .ok (ans, res)) :
    ∀ h ∈ res, HitFromChunk meta roles h := by
  simp only [search] at hok
  split at hok
  · cases hok
  · split at hok
    · cases hok
    · rename_i results hbr
      have h2 : results = res := by
        injection hok with h3
        exact congrArg Prod.snd h3
      subst h2
      exact buildResults_sound meta _ _ roles topk _ _ _ [] results
        (by intro x hx; cases hx) hbr

theorem search_ok (meta : List ChunkMeta) (bm25_scores : List ℚ)
    (vecRanks : List Nat) (vecScores : List ℚ) (gl : Glossary) (query : Str)
    (roles : List Str) (topk : Int) (bm25_k : Nat) (alpha : ℚ)
    (h1 : ∀ i ∈ vecRanks, i < bm25_scores.length)
    (h2 : bm25_scores.length ≤ meta.length)
    (h3 : vecRanks.length ≤ vecScores.length) :
    ∃ out, search meta bm25_scores vecRanks vecScores gl query roles topk bm25_k alpha =
      .ok out := by
  obtain ⟨c, f, o, hfs⟩ := fuseStage_ok_exists bm25_scores vecRanks vecScores bm25_k alpha h1 h3
  obtain ⟨hc, hflen, ho⟩ := fuseStage_ok_shape bm25_scores vecRanks vecScores bm25_k alpha
    c f o hfs
  have hjs : ∀ j ∈ o, j < c.length ∧ j < f.length := by
    intro j hj
    rw [ho] at hj
    have hj2 := argsortAsc_mem f j (List.mem_reverse.mp hj)
    exact ⟨hflen ▸ hj2, hj2⟩
  have hcs : ∀ i ∈ c, i < meta.length := by
    intro i hi
    rw [hc] at hi
    exact Nat.lt_of_lt_of_le (fuseStage_cands_lt bm25_scores vecRanks bm25_k h1 i hi) h2
  obtain ⟨res, hbr⟩ := buildResults_ok meta c f roles topk
    (dedupKeepFirst (tokenize_ar query ++ [stripStr query]) ++
      crossLangTerms gl (stripStr query))
    (expand_terms_from_glossary query gl) o [] hjs hcs
  exact ⟨_, search_unfold_ok meta bm25_scores vecRanks vecScores gl query roles topk bm25_k
    alpha c f o res hfs hbr⟩

theorem search_unfold_fuse_error (meta : List ChunkMeta) (bm25_scores : List ℚ)
    (vecRanks : List Nat) (vecScores : List ℚ) (gl : Glossary) (query : Str)
    (roles : List Str) (topk : Int) (bm25_k : Nat) (alpha : ℚ) (e : Unit)
    (hfs : fuseStage bm25_scores vecRanks vecScores bm25_k alpha = .error e) :
    search meta bm25_scores vecRanks vecScores gl query roles topk bm25_k alpha =
      .error e := by
  simp [search, hfs]

theorem search_unfold_build_error (meta : List ChunkMeta) (bm25_scores : List ℚ)
    (vecRanks : List Nat) (vecScores : List ℚ) (gl : Glossary) (query : Str)
    (roles : List Str) (topk : Int) (bm25_k : Nat) (alpha : ℚ)
    (c : List Nat) (f : List ℚ) (o : List Nat) (e : Unit)
    (hfs : fuseStage bm25_scores vecRanks vecScores bm25_k alpha = .ok (c, f, o))
    (hbr : buildResults meta c f roles topk
      (dedupKeepFirst (tokenize_ar query ++ [stripStr query]) ++
        crossLangTerms gl (stripStr query))
      (expand_terms_from_glossary query gl) o [] = .error e) :
    search meta bm25_scores vecRanks vecScores gl query roles topk bm25_k alpha =
      .error e := by
  simp [search, hfs, hbr]

theorem buildResults_roles_irrelevant (meta : List ChunkMeta)
    (f : ChunkMeta → Option (List Str)) (cand_ids : List Nat) (final : List ℚ)
    (topk : Int) (yellow green : List Str) :
    ∀ (order : List Nat) (acc : List SearchHit),
      buildResults (meta.map (fun m => { m with roles := f m })) cand_ids final []
        topk yellow green order acc =
      buildResults meta cand_ids final [] topk yellow green order acc := by
  intro order
  induction order with
  | nil => intro acc; rfl
  | cons j rest ih =>
    intro acc
    cases hc : cand_ids[j]? with
    | none =>
      rw [buildResults_cons_none _ cand_ids final [] topk yellow green j rest acc hc,
        buildResults_cons_none meta cand_ids final [] topk yellow green j rest acc hc]
    | some idx =>
      cases hm : meta[idx]? with
      | none =>
        have hm2 : (meta.map (fun m => { m with roles := f m }))[idx]? = none := by
          rw [List.getElem?_map, hm]; rfl
        rw [buildResults_cons_meta_none _ cand_ids final [] topk yellow green
            j idx rest acc hc hm2,
          buildResults_cons_meta_none meta cand_ids final [] topk yellow green
            j idx rest acc hc hm]
      | some m =>
        have hm2 : (meta.map (fun m => { m with roles := f m }))[idx]? =
            some { m with roles := f m } := by
          rw [List.getElem?_map, hm]; rfl
        cases hf : final[j]? with
        | none =>
          rw [buildResults_cons_final_none _ cand_ids final [] topk yellow green
              j idx rest acc { m with roles := f m } hc hm2 (rbacSkips_empty _) hf,
            buildResults_cons_final_none meta cand_ids final [] topk yellow green
              j idx rest acc m hc hm (rbacSkips_empty _) hf]
        | some sc =>
          rw [buildResults_cons_keep _ cand_ids final [] topk yellow green
              j idx rest acc { m with roles := f m } sc hc hm2 (rbacSkips_empty _) hf,
            buildResults_cons_keep meta cand_ids final [] topk yellow green
              j idx rest acc m sc hc hm (rbacSkips_empty _) hf]
          have hmk : mkHit { m with roles := f m } (acc.length + 1) sc yellow green =
              mkHit m (acc.length + 1) sc yellow green := rfl
          rw [hmk]
          by_cases htop : topk ≤
              ((acc ++ [mkHit m (acc.length + 1) sc yellow green]).length : Int)
          · rw [if_pos htop, if_pos htop]
          · rw [if_neg htop, if_neg htop, ih]

/-- Claim C3: when search is called with an empty requester role list, the
declared role gate is skipped entirely: the gate excludes no candidate
whatever its roles metadata, and the whole search output is invariant under
arbitrary replacement of every chunk roles field — an empty role set grants
access to all chunks rather than none. -/
theorem search_empty_roles_skips_gate :
    (∀ doc_roles : List Str, rbacSkips [] doc_roles = false) ∧
    (∀ (meta : List ChunkMeta) (bm25_scores : List ℚ) (vecRanks : List Nat)
      (vecScores : List ℚ) (gl : Glossary) (query : Str) (topk : Int) (bm25_k : Nat)
      (alpha : ℚ) (f : ChunkMeta → Option (List Str)),
      search (meta.map (fun m => { m with roles := f m })) bm25_scores vecRanks vecScores
        gl query [] topk bm25_k alpha =
      search meta bm25_scores vecRanks vecScores gl query [] topk bm25_k alpha) := by
  refine ⟨rbacSkips_empty, ?_⟩
  intro meta bm25_scores vecRanks vecScores gl query topk bm25_k alpha f
  cases hfs : fuseStage bm25_scores vecRanks vecScores bm25_k alpha with
  | error e =>
    rw [search_unfold_fuse_error _ bm25_scores vecRanks vecScores gl query [] topk
        bm25_k alpha e hfs,
      search_unfold_fuse_error meta bm25_scores vecRanks vecScores gl query [] topk
        bm25_k alpha e hfs]
  | ok trip =>
    obtain ⟨c, fi, o⟩ := trip
    cases hbr : buildResults meta c fi [] topk
        (dedupKeepFirst (tokenize_ar query ++ [stripStr query]) ++
          crossLangTerms gl (stripStr query))
        (expand_terms_from_glossary query gl) o [] with
    | error e =>
      have hbr2 := (buildResults_roles_irrelevant meta f c fi topk _ _ o []).trans hbr
      rw [search_unfold_build_error _ bm25_scores vecRanks vecScores gl query [] topk
          bm25_k alpha c fi o e hfs hbr2,
        search_unfold_build_error meta bm25_scores vecRanks vecScores gl query [] topk
          bm25_k alpha c fi o e hfs hbr]
    | ok results =>
      have hbr2 := (buildResults_roles_irrelevant meta f c fi topk _ _ o []).trans hbr
      rw [search_unfold_ok _ bm25_scores vecRanks vecScores gl query [] topk
          bm25_k alpha c fi o results hfs hbr2,
        search_unfold_ok meta bm25_scores vecRanks vecScores gl query [] topk
          bm25_k alpha c fi o results hfs hbr]
      cases results with
      | nil => rfl
      | cons r t => rfl

/-- Counterexample to claim C4 as stated: a chunk whose roles metadata field
is absent is excluded, not admitted, for the requester with nonempty declared
role list staff; the query still completes normally, returning ok with the no
result fallback answer (the code defaults a missing roles field to the empty
list, not to all roles). -/
theorem missing_roles_chunk_excluded :
    search [⟨ts "docA", ts "t", none, [], none, none, none⟩]
      [1] [0] [1] [] (ts "q") [ts "staff"] 5 50 (7 / 10) =
      .ok (ts "لم يتم العثور على نتيجة ذات صلة.", []) := by decide

/-- Claim C4 amended: a chunk with a missing roles field defaults to the empty
role set, so every requester with a nonempty role list is denied it: every
result retained by search against a nonempty role list comes from a chunk
whose roles field is present and intersects the requester roles. The
malformed chunk does not abort the query, which returns ok (see the
counterexample run, which completes with the fallback answer). -/
theorem missing_roles_excluded (meta : List ChunkMeta) (bm25_scores : List ℚ)
    (vecRanks : List Nat) (vecScores : List ℚ) (gl : Glossary) (query : Str)
    (roles : List Str) (topk : Int) (bm25_k : Nat) (alpha : ℚ) (ans : Str)
    (res : List SearchHit) (hroles : roles ≠ [])
    (hok : search meta bm25_scores vecRanks vecScores gl query roles topk bm25_k alpha =
      .ok (ans, res)) :
    ∀ h ∈ res, ∃ (i : Nat) (m : ChunkMeta), meta[i]? = some m ∧ h.doc_id = m.doc_id ∧
      ∃ rs, m.roles = some rs ∧ interRoles roles rs ≠ [] := by
  intro h hh
  obtain ⟨i, m, hm, hd, hgate⟩ := search_results_sound meta bm25_scores vecRanks vecScores
    gl query roles topk bm25_k alpha ans res hok h hh
  rcases hgate with h0 | h0
  · exact absurd h0 hroles
  · refine ⟨i, m, hm, hd, ?_⟩
    cases hr : m.roles with
    | none =>
      rw [hr] at h0
      simp only [Option.getD_none] at h0
      exact absurd (interRoles_nil roles) h0
    | some rs =>
      rw [hr] at h0
      simp only [Option.getD_some] at h0
      exact ⟨rs, rfl, h0⟩

/-- Witness for the amended claim C4: a concrete run against a chunk whose
roles field is present and equal to {staff} for the requester staff. -/
theorem missing_roles_excluded_witness :
    ∃ (i : Nat) (m : ChunkMeta),
      ([⟨ts "docA", ts "t", none, [], none, none, some [ts "staff"]⟩] :
        List ChunkMeta)[i]? = some m ∧
      (⟨1, ts "docA", none, none, none, 0, ts "t"⟩ : SearchHit).doc_id = m.doc_id ∧
      ∃ rs, m.roles = some rs ∧ interRoles [ts "staff"] rs ≠ [] :=
  missing_roles_excluded [⟨ts "docA", ts "t", none, [], none, none, some [ts "staff"]⟩]
    [1] [0] [1] [] (ts "q") [ts "staff"] 5 50 (7 / 10) (ts "t")
    [⟨1, ts "docA", none, none, none, 0, ts "t"⟩]
    (by decide) (by decide)
    ⟨1, ts "docA", none, none, none, 0, ts "t"⟩ (by decide)

/-- Counterexample to claim C1 as stated: with declared role public (absent
from the hierarchy) the effective role set is empty, so search skips the
declared role gate, and a chunk whose roles set is {admin} — disjoint from
the empty effective set — is retained by the full ask pipeline. -/
theorem ask_retains_without_role_intersection :
    (askResults [⟨ts "docA", ts "t", none, [], none, none, some [ts "admin"]⟩]
      [1] [0] [1] [] (ts "q") [ts "public"] 5 50 (7 / 10)).map
        (List.map SearchHit.doc_id) = .ok [ts "docA"] ∧
    get_effective_roles [ts "public"] = [] ∧
    interRoles (get_effective_roles [ts "public"]) [ts "admin"] = [] := by decide

/-- Claim C1 amended: every result retained by the ask pipeline satisfies the
naming pattern gate against the declared roles (a document whose name contains
the case insensitive substring restricted is retained only when the declared
roles intersect {legal, admin}), and comes from a chunk of the collection
whose roles either intersect the effective role set or are unchecked because
the effective role set is empty — the declared role conjunct of the original
claim holds only when the effective role set is nonempty. -/
theorem ask_access_filter_sound (meta : List ChunkMeta) (bm25_scores : List ℚ)
    (vecRanks : List Nat) (vecScores : List ℚ) (gl : Glossary) (query : Str)
    (declared : List Str) (topk : Int) (bm25_k : Nat) (alpha : ℚ)
    (res : List SearchHit)
    (hok : askResults meta bm25_scores vecRanks vecScores gl query declared topk
      bm25_k alpha = .ok res) :
    ∀ h ∈ res,
      (isSubstr (ts "restricted") (lowerStr h.doc_id) = true →
        interRoles declared [ts "legal", ts "admin"] ≠ []) ∧
      ∃ (i : Nat) (m : ChunkMeta), meta[i]? = some m ∧ h.doc_id = m.doc_id ∧
        (get_effective_roles declared = [] ∨
         interRoles (get_effective_roles declared) (m.roles.getD []) ≠ []) := by
  simp only [askResults] at hok
  split at hok
  · cases hok
  · rename_i out hs
    have hres : res = filter_documents_by_access declared out.2 := by
      injection hok with h2
      exact h2.symm
    subst hres
    intro h hh
    unfold filter_documents_by_access at hh
    constructor
    · have hcfa : check_file_access declared h.doc_id = true := by
        have hb := List.of_mem_filter hh
        simpa using hb
      intro hrestricted
      unfold check_file_access at hcfa
      have hr2 : isSubstr ("restricted".toList) (lowerStr h.doc_id) = true := hrestricted
      rw [if_pos hr2] at hcfa
      intro hEq
      have hEq2 : interRoles declared ["legal".toList, "admin".toList] = [] := hEq
      rw [hEq2] at hcfa
      simp at hcfa
    · have hmem2 : h ∈ out.2 := List.mem_of_mem_filter hh
      exact search_results_sound meta bm25_scores vecRanks vecScores gl query
        (get_effective_roles declared) topk bm25_k alpha out.1 out.2 hs h hmem2

/-- Witness for the amended claim C1 at a concrete run: requester staff and a
chunk gated to {staff}; the only retained result satisfies both conjuncts. -/
theorem ask_access_filter_sound_witness :
    (isSubstr (ts "restricted")
        (lowerStr (⟨1, ts "docA", none, none, none, 0, ts "t"⟩ : SearchHit).doc_id) = true →
      interRoles [ts "staff"] [ts "legal", ts "admin"] ≠ []) ∧
    ∃ (i : Nat) (m : ChunkMeta),
      ([⟨ts "docA", ts "t", none, [], none, none, some [ts "staff"]⟩] :
        List ChunkMeta)[i]? = some m ∧
      (⟨1, ts "docA", none, none, none, 0, ts "t"⟩ : SearchHit).doc_id = m.doc_id ∧
      (get_effective_roles [ts "staff"] = [] ∨
       interRoles (get_effective_roles [ts "staff"]) (m.roles.getD []) ≠ []) :=
  ask_access_filter_sound [⟨ts "docA", ts "t", none, [], none, none, some [ts "staff"]⟩]
    [1] [0] [1] [] (ts "q") [ts "staff"] 5 50 (7 / 10)
    [⟨1, ts "docA", none, none, none, 0, ts "t"⟩]
    (by decide)
    ⟨1, ts "docA", none, none, none, 0, ts "t"⟩ (by decide)

/-- Counterexample to the tie breaking conjunct of claim C5: two candidates,
first seen in the order 0 then 1, whose fused scores tie at 0, are traversed
in the order 1 then 0 — the reverse of first seen order — because the
descending order is produced by reversing a stable ascending argsort. -/
theorem fused_ties_reverse_first_seen :
    ∃ (cand_ids : List Nat) (final : List ℚ) (order : List Nat),
      fuseStage [(0 : ℚ), 0] [0, 1] [(5 : ℚ), 5] 0 (7 / 10) =
        .ok (cand_ids, final, order) ∧
      cand_ids = [0, 1] ∧
      final.getD 0 0 = final.getD 1 0 ∧
      order.map (fun j => cand_ids.getD j 0) = [1, 0] :=
  ⟨[0, 1], [0, 0], [1, 0], by decide, rfl, by decide, by decide⟩

/-- Claim C5 amended: the fused candidate traversal built by search contains
at most bm25_k plus vec_k distinct chunk indices (given that the dense scorer
returns at most vec_k indices) and visits them in non increasing fused score
order; tied scores are visited in the reverse of first seen candidate order,
not in first seen order, because the descending traversal reverses an
ascending argsort. -/
theorem fused_candidates_ordered (bm25_scores : List ℚ) (vecRanks : List Nat)
    (vecScores : List ℚ) (bm25_k vec_k : Nat) (alpha : ℚ)
    (cand_ids : List Nat) (final : List ℚ) (order : List Nat)
    (hvk : vecRanks.length ≤ vec_k)
    (hok : fuseStage bm25_scores vecRanks vecScores bm25_k alpha =
      .ok (cand_ids, final, order)) :
    (order.map (fun j => cand_ids.getD j 0)).Nodup ∧
    order.length ≤ bm25_k + vec_k ∧
    (order.map (fun j => final.getD j 0)).Pairwise (fun a b => b ≤ a) := by
  obtain ⟨hc, hflen, ho⟩ := fuseStage_ok_shape bm25_scores vecRanks vecScores bm25_k alpha
    cand_ids final order hok
  have hperm : List.Perm order (List.range final.length) := by
    rw [ho]
    exact (List.reverse_perm _).trans (argsortAsc_perm final)
  refine ⟨?_, ?_, ?_⟩
  · have hcand_nodup : cand_ids.Nodup := by
      rw [hc]; exact nodup_dedupAux _ []
    have hmapped : (List.range final.length).map (fun j => cand_ids.getD j 0) = cand_ids := by
      rw [hflen]; exact map_getD_range 0 cand_ids
    have hp2 := hperm.map (fun j => cand_ids.getD j 0)
    rw [hmapped] at hp2
    exact hp2.nodup_iff.mpr hcand_nodup
  · have hlen : order.length = final.length := by
      rw [hperm.length_eq, List.length_range]
    rw [hlen, hflen, hc]
    calc (dedupKeepFirst (((argsortAsc bm25_scores).reverse).take bm25_k ++ vecRanks)).length
        ≤ (((argsortAsc bm25_scores).reverse).take bm25_k ++ vecRanks).length :=
          length_dedupAux_le _ []
      _ = (((argsortAsc bm25_scores).reverse).take bm25_k).length + vecRanks.length :=
          List.length_append _ _
      _ ≤ bm25_k + vec_k := by
          have h1 : (((argsortAsc bm25_scores).reverse).take bm25_k).length ≤ bm25_k := by
            rw [List.length_take]
            exact Nat.min_le_left _ _
          omega
  · haveI htot : IsTotal Nat
        (fun i j => final.getD i 0 < final.getD j 0 ∨
          (final.getD i 0 = final.getD j 0 ∧ i ≤ j)) := by
      constructor
      intro a b
      rcases lt_trichotomy (final.getD a 0) (final.getD b 0) with h | h | h
      · exact Or.inl (Or.inl h)
      · rcases Nat.le_total a b with h2 | h2
        · exact Or.inl (Or.inr ⟨h, h2⟩)
        · exact Or.inr (Or.inr ⟨h.symm, h2⟩)
      · exact Or.inr (Or.inl h)
    haveI htr : IsTrans Nat
        (fun i j => final.getD i 0 < final.getD j 0 ∨
          (final.getD i 0 = final.getD j 0 ∧ i ≤ j)) := by
      constructor
      intro a b c hab hbc
      rcases hab with h1 | ⟨h1, h1b⟩ <;> rcases hbc with h2 | ⟨h2, h2b⟩
      · exact Or.inl (lt_trans h1 h2)
      · exact Or.inl (h2 ▸ h1)
      · exact Or.inl (h1 ▸ h2)
      · exact Or.inr ⟨h1.trans h2, h1b.trans h2b⟩
    have hsorted : (argsortAsc final).Pairwise
        (fun i j => final.getD i 0 < final.getD j 0 ∨
          (final.getD i 0 = final.getD j 0 ∧ i ≤ j)) := by
      unfold argsortAsc
      exact List.sorted_insertionSort _ _
    have hle : (argsortAsc final).Pairwise
        (fun i j => final.getD i 0 ≤ final.getD j 0) := by
      refine hsorted.imp ?_
      intro a b hab
      rcases hab with h | ⟨h, _⟩
      · exact le_of_lt h
      · exact le_of_eq h
    rw [ho]
    refine List.pairwise_map.mpr ?_
    exact List.pairwise_reverse.mpr hle

/-- Witness for the amended claim C5 at the concrete tie input. -/
theorem fused_candidates_ordered_witness :
    (([1, 0] : List Nat).map (fun j => ([0, 1] : List Nat).getD j 0)).Nodup ∧
    ([1, 0] : List Nat).length ≤ 0 + 2 ∧
    (([1, 0] : List Nat).map (fun j => ([(0 : ℚ), 0]).getD j 0)).Pairwise
      (fun a b => b ≤ a) :=
  fused_candidates_ordered [(0 : ℚ), 0] [0, 1] [(5 : ℚ), 5] 0 2 (7 / 10)
    [0, 1] [0, 0] [1, 0] (by decide) (by decide)

set_option maxRecDepth 40000 in
/-- Counterexample to claim C9 as stated: a search call with empty query,
negative topk and alpha outside the unit interval is not rejected — no
caller visible error is produced; the call runs the whole scoring pipeline
and returns ok with a result, without clamping any parameter. -/
theorem search_invalid_params_accepted :
    search [⟨ts "docA", ts "t", none, [], none, none, some [ts "staff"]⟩]
      [1] [0] [1] [] [] [ts "staff"] (-1) 50 2 =
      .ok (ts "t", [⟨1, ts "docA", none, none, none, 0, ts "t"⟩]) := by decide

/-- Claim C9 amended: the search orchestrator performs no parameter
validation: for every topk (negative included), every alpha (outside the unit
interval included) and every query (empty included), as long as the external
scorer outputs are well shaped, the call is accepted and returns ok — no
rejection happens before scoring and nothing is clamped. -/
theorem search_no_param_validation (meta : List ChunkMeta) (bm25_scores : List ℚ)
    (vecRanks : List Nat) (vecScores : List ℚ) (gl : Glossary) (query : Str)
    (roles : List Str) (topk : Int) (bm25_k : Nat) (alpha : ℚ)
    (h1 : ∀ i ∈ vecRanks, i < bm25_scores.length)
    (h2 : bm25_scores.length ≤ meta.length)
    (h3 : vecRanks.length ≤ vecScores.length) :
    ∃ out, search meta bm25_scores vecRanks vecScores gl query roles topk bm25_k alpha =
      .ok out :=
  search_ok meta bm25_scores vecRanks vecScores gl query roles topk bm25_k alpha h1 h2 h3

/-- Witness for the amended claim C9 at concrete invalid parameters: empty
query, topk equal to minus one and alpha equal to two. -/
theorem search_no_param_validation_witness :
    ∃ out, search [⟨ts "docA", ts "t", none, [], none, none, some [ts "staff"]⟩]
      [1] [0] [1] [] [] [ts "staff"] (-1) 50 2 = .ok out :=
  search_no_param_validation [⟨ts "docA", ts "t", none, [], none, none, some [ts "staff"]⟩]
    [1] [0] [1] [] [] [ts "staff"] (-1) 50 2
    (by decide) (by decide) (by decide)

end NRCC
